import Mathlib

/-!
Verification development for the `plbonds` retail-treasury-bond library.

The Python source is embedded shallowly:

* `datetime.date` / the `Date` subclass become the structure `Dt` together
  with rata-die day numbers (`toRD` / `ofRD`, Gregorian calendar);
* `dateutil.relativedelta` (the `RelativeDate` / `Maturity` classes) becomes
  the structure `RelDate` with the calendar addition `addRel`;
* `float` arithmetic is modelled by exact rationals (`Rat`); Python's
  `round(x, n)` and `numpy`'s `.round(n)` (round-half-to-even) become
  `roundTo`;
* the pandas tables become lists of rows / groups, and raised exceptions
  become `Except`.
-/

/-! ## Calendar: `Date` and `RelativeDate` -/

/-- Gregorian leap-year rule, from `Date.number_of_days_in_year`. -/
def isLeap (y : Int) : Bool :=
  (y % 4 == 0 && y % 100 != 0) || y % 400 == 0

/-- Number of days in calendar year `y` (`Date.number_of_days_in_year`). -/
def daysInYear (y : Int) : Int :=
  if isLeap y then 366 else 365

/-- Number of days of month `m` in year `y`. -/
def daysInMonth (y m : Int) : Int :=
  if m = 2 then (if isLeap y then 29 else 28)
  else if m = 4 ∨ m = 6 ∨ m = 9 ∨ m = 11 then 30
  else 31

/-- Days in year `y` strictly before month `m` (for `m` in `1..12`). -/
def daysBeforeMonth (y m : Int) : Int :=
  let l : Int := if isLeap y then 1 else 0
  if m = 1 then 0
  else if m = 2 then 31
  else if m = 3 then 59 + l
  else if m = 4 then 90 + l
  else if m = 5 then 120 + l
  else if m = 6 then 151 + l
  else if m = 7 then 181 + l
  else if m = 8 then 212 + l
  else if m = 9 then 243 + l
  else if m = 10 then 273 + l
  else if m = 11 then 304 + l
  else 334 + l

/-- A calendar date (year, month, day); embeds Python's `datetime.date`. -/
structure Dt where
  year : Int
  month : Int
  day : Int
deriving DecidableEq, Repr

/-- Rata-die day number of a date: day 1 is 0001-01-01. -/
def toRD (d : Dt) : Int :=
  365 * (d.year - 1) + (d.year - 1).fdiv 4 - (d.year - 1).fdiv 100
    + (d.year - 1).fdiv 400 + daysBeforeMonth d.year d.month + d.day

/-- Date of a rata-die day number (inverse of `toRD` on valid dates). -/
def ofRD (n : Int) : Dt :=
  let z := n + 305
  let era := z.fdiv 146097
  let doe := z - era * 146097
  let yoe := (doe - doe.fdiv 1460 + doe.fdiv 36524 - doe.fdiv 146096).fdiv 365
  let y := yoe + era * 400
  let doy := doe - (365 * yoe + yoe.fdiv 4 - yoe.fdiv 100)
  let mp := (5 * doy + 2).fdiv 153
  let dd := doy - (153 * mp + 2).fdiv 5 + 1
  let m := if mp < 10 then mp + 3 else mp - 9
  ⟨if m ≤ 2 then y + 1 else y, m, dd⟩

/-- Signed calendar offset; embeds `dateutil.relativedelta` as used by the
`RelativeDate` and `Maturity` classes (years / months / days components). -/
structure RelDate where
  years : Int
  months : Int
  days : Int
deriving DecidableEq, Repr

/-- Component-wise negation (`-relativedelta`), used for `date - offset`. -/
def negRel (r : RelDate) : RelDate := ⟨-r.years, -r.months, -r.days⟩

/-- Integer scaling `k * relativedelta` (component-wise, as in dateutil). -/
def scaleRel (k : Int) (r : RelDate) : RelDate := ⟨k * r.years, k * r.months, k * r.days⟩

/-- Calendar addition `date + relativedelta` with dateutil semantics:
add years and months (normalising month overflow), clamp the day to the
target month's length, then add the day component through the calendar. -/
def addRel (d : Dt) (r : RelDate) : Dt :=
  let tm := (d.year + r.years) * 12 + (d.month - 1) + r.months
  let y := tm.fdiv 12
  let m := tm.fmod 12 + 1
  let dd := min d.day (daysInMonth y m)
  ofRD (toRD ⟨y, m, dd⟩ + r.days)

/-- Python's `date < date` comparison (dates compare chronologically). -/
def dtLt (a b : Dt) : Prop := toRD a < toRD b

instance (a b : Dt) : Decidable (dtLt a b) := by
  unfold dtLt; infer_instance

/-- Python's `min([d1, d2])` on two dates (first argument wins ties). -/
def minDt (a b : Dt) : Dt := if toRD b < toRD a then b else a

/-- The `Period.monthly` constant (`RelativeDate(months=1)`). -/
def monthlyRel : RelDate := ⟨0, 1, 0⟩

/-- The `Period.yearly` constant (`RelativeDate(years=1)`). -/
def yearlyRel : RelDate := ⟨1, 0, 0⟩

/-! ## Rounding

Python's `round` and numpy's `.round` use round-half-to-even; the floats of
the source are modelled as exact rationals, so rounding is exact here. -/

/-- Round a rational to the nearest integer, ties to even. -/
def rhe (x : Rat) : Int :=
  let f := x.floor
  let r := x - (f : Rat)
  if r < 1/2 then f
  else if (1:Rat)/2 < r then f + 1
  else if f % 2 = 0 then f else f + 1

/-- Round-half-to-even at `k` decimal places (`round(x, k)` / `np.round(x, k)`). -/
def roundTo (k : Nat) (x : Rat) : Rat :=
  (rhe (x * (10:Rat)^k) : Rat) / (10:Rat)^k

/-- Rounding to 2 decimals, as used for capital amounts. -/
def round2 (x : Rat) : Rat := roundTo 2 x

/-- Rounding to 8 decimals, as used for daily interest. -/
def round8 (x : Rat) : Rat := roundTo 8 x

/-- `n` consecutive day numbers starting at `a`. -/
def dateRangeGo (a : Int) : Nat → List Int
  | 0 => []
  | n + 1 => a :: dateRangeGo (a + 1) n

/-- Inclusive range of day numbers, the model of
`pd.date_range(start, end, freq="D")` (empty when `b < a`). -/
def dateRange (a b : Int) : List Int := dateRangeGo a (b - a + 1).toNat

/-! ## Reference Rate Store (`Rates`)

The pandas `DataFrame` with a daily `DatetimeIndex` and one column per rate
series is modelled by an optional inclusive day-number interval (`range`),
the list of existing columns (`cols`), and a sparse per-series valuation
(`vals`, `none` = NaN). -/

/-- State of a `Rates` store. -/
structure RatesStore where
  range : Option (Int × Int)
  cols : List String
  vals : String → Int → Option Rat

/-- A freshly constructed `Rates()` (empty index, no columns). -/
def emptyStore : RatesStore := ⟨none, [], fun _ _ => none⟩

/-- Model of `Rates._prep_dataframe(start, end)`: reindex over the union of
the existing range and the requested one (the reindex never drops populated
days because the new range always contains the old one). -/
def prepDF (st : RatesStore) (s? e? : Option Int) : RatesStore :=
  match st.range with
  | none =>
      let s := s?.getD 0
      let e := e?.getD 0
      { st with range := if s ≤ e then some (s, e) else none }
  | some (a, b) =>
      let s := match s? with
        | none => a
        | some s => if s > a then a else s
      let e := match e? with
        | none => b
        | some e => if e < b then b else e
      { st with range := some (s, e) }

/-- Model of the label-slice assignment `data.loc[s:e, name] = v`: assign
`v` to every day of `[s, e]` that is present in the current index (pandas
label slicing clips to the index; a missing column is created, NaN
elsewhere). -/
def rangeAssign (st : RatesStore) (name : String) (s e : Int) (v : Rat) : RatesStore :=
  match st.range with
  | none => st
  | some (a, b) =>
      { st with
        cols := if name ∈ st.cols then st.cols else st.cols ++ [name]
        vals := fun nm d =>
          if nm = name ∧ max s a ≤ d ∧ d ≤ min e b then some v else st.vals nm d }

/-- Last day of the populated index (`data.index[-1]`), 0 if empty. -/
def storeLast (st : RatesStore) : Int :=
  match st.range with
  | none => 0
  | some (_, b) => b

/-- First day of the populated index (`data.index[0]`), 0 if empty. -/
def storeFirst (st : RatesStore) : Int :=
  match st.range with
  | none => 0
  | some (a, _) => a

/-- Model of the `extended_range` argument of `set_rates_continuously`:
a 1-tuple `(past,)` or a 2-tuple `(past, future)` of optional dates. -/
inductive ExtRange where
  | one (past : Option Int)
  | two (past future : Option Int)
deriving DecidableEq, Repr

/-- Smallest element of a day list (`min(dates)`); `dflt` for `[]`. -/
def minList (l : List Int) (dflt : Int) : Int := l.foldl min (l.headD dflt)

/-- Largest element of a day list (`max(dates)`); `dflt` for `[]`. -/
def maxList (l : List Int) (dflt : Int) : Int := l.foldl max (l.headD dflt)

/-- The inner helper `extend_edge_rates` of `Rates.set_rates_continuously`:
flat-extend the first / last value to the requested past / future bound.
Note the closed-over `dates` already has the (pre-extension) `index[-1]`
appended, so `dates[-1]` below is that index end, while `dates[0]` is the
first breakpoint. -/
def extendEdgeRates (st : RatesStore) (name : String) (values : List Rat)
    (dates : List Int) (ext : ExtRange) : RatesStore :=
  match ext with
  | .one p =>
      let st1 := prepDF st (some (p.getD 0)) none
      rangeAssign st1 name (p.getD 0) (dates.headD 0) (values.headD 0)
  | .two p f =>
      match p, f with
      | some p, none =>
          let st1 := prepDF st (some p) none
          rangeAssign st1 name p (dates.headD 0) (values.headD 0)
      | none, some f =>
          let st1 := prepDF st none (some f)
          rangeAssign st1 name (dates.getLastD 0) f (values.getLastD 0)
      | some p, some f =>
          let st1 := prepDF st (some p) (some f)
          let st2 := rangeAssign st1 name p (dates.headD 0) (values.headD 0)
          rangeAssign st2 name (dates.getLastD 0) f (values.getLastD 0)
      | none, none =>
          let st1 := prepDF st (some 0) none
          rangeAssign st1 name 0 (dates.headD 0) (values.headD 0)

/-- Model of `Rates.set_rates_continuously(name, values, dates,
extended_range)`: prepare the index over `[min(dates), max(dates)]`, append
`index[-1]` to the breakpoints, assign `values[i]` to the inclusive label
span `[dates[i], dates[i+1]]` in order (later assignments overwrite the
shared endpoints), then optionally extend the edge values. -/
def setRatesCont (st : RatesStore) (name : String) (values : List Rat)
    (dates : List Int) (ext : Option ExtRange) : RatesStore :=
  let st1 := prepDF st (some (minList dates 0)) (some (maxList dates 0))
  let dps := dates ++ [storeLast st1]
  let st2 := (values.zip (dps.zip dps.tail)).foldl
    (fun s vse => rangeAssign s name vse.2.1 vse.2.2 vse.1) st1
  match ext with
  | none => st2
  | some e => extendEdgeRates st2 name values dps e

/-- The series name `RateNames.GUSCPI`. -/
def guscpiName : String := "GUS:CPI"

/-- The series name `RateNames.NBPREF`. -/
def nbprefName : String := "NBP:REF"

/-- The per-series lookup-offset convention (`Rates.RateGetMethods`):
`GUS:CPI` reads the value 2 months before the queried date, `NBP:REF` one
day before; an unregistered name falls back to the default method
(`NBP:REF`'s), with a logged warning. -/
def lookupMethod (name : String) (d : Dt) : Dt :=
  if name = guscpiName then addRel d (negRel ⟨0, 2, 0⟩)
  else addRel d (negRel ⟨0, 0, 1⟩)

/-- Resolved source day of a lookup. -/
def srcDay (name : String) (d : Dt) : Int := toRD (lookupMethod name d)

/-- First populated day of series `name` (`data[name].first_valid_index()`). -/
def firstValid (st : RatesStore) (name : String) : Option Int :=
  match st.range with
  | none => none
  | some (a, b) => (dateRange a b).find? (fun d => (st.vals name d).isSome)

/-- Last populated day of series `name` (`data[name].last_valid_index()`). -/
def lastValid (st : RatesStore) (name : String) : Option Int :=
  match st.range with
  | none => none
  | some (a, b) => (dateRange a b).reverse.find? (fun d => (st.vals name d).isSome)

/-- Payload of the `KeyError` raised by `Rates.get_rate_by_date`: the
message interpolates the series name, the resolved source date, the
originally requested date, and the series' populated bounds. -/
structure LookupErr where
  name : String
  src : Int
  req : Int
  lo : Option Int
  hi : Option Int
deriving DecidableEq, Repr

/-- Whether day `x` is in the populated index (`src_date in data.index`). -/
def inIndex (st : RatesStore) (x : Int) : Bool :=
  match st.range with
  | none => false
  | some (a, b) => a ≤ x && x ≤ b

/-- The two error shapes `Rates.get_rate_by_date` can raise: the
formatted `KeyError` of its `except` block (full `LookupErr` payload), or
— when the series column does not exist — the bare `KeyError(name)` that
`self.data[name]` raises while the `except` block is still FORMATTING that
message, carrying nothing but the column name. -/
inductive RateErr where
  | payload (e : LookupErr)
  | bare (name : String)
deriving DecidableEq, Repr

/-- Model of `Rates.get_rate_by_date(name, date)`: apply the per-series
offset convention, read `data.loc[src_date, name]` — a `KeyError` when
the source day is outside the index or the column does not exist, NaN
(`ok none`) when the day is indexed but the series is unpopulated there —
and clamp negative values to 0.  On the error path the `except` block
re-raises with the full message only if the column exists; otherwise the
message's `self.data[name]` itself raises the bare `KeyError(name)`. -/
def getRateByDate (st : RatesStore) (name : String) (d : Dt) :
    Except RateErr (Option Rat) :=
  let src := srcDay name d
  if inIndex st src ∧ name ∈ st.cols then
    match st.vals name src with
    | some v => .ok (some (if v < 0 then 0 else v))
    | none => .ok none
  else if name ∈ st.cols then
    .error (.payload ⟨name, src, toRD d, firstValid st name, lastValid st name⟩)
  else
    .error (.bare name)

/-- Whether an `Except` is a success (`Except.isOk`). -/
def exceptIsOk {ε α : Type} : Except ε α → Bool
  | .ok _ => true
  | .error _ => false

/-! ## Interest Accrual Engine (`Bond`)

The ledger's `(instance, period, date)` MultiIndex groups rows by
`(instance, period)`; within a group the source assigns `rate` and
`capital` as scalars, so a group is modelled as one record carrying the
scalar columns and per-day lists for the remaining columns.  The rate
lookups `self.rates.get_rate_by_date(name=self.source_rate, date=...)` are
abstracted into a `lookup` function on day numbers, total on success and
failing with a `LookupErr` exactly where the store would raise. -/

/-- Construction parameters of a `Bond` (names follow the source). -/
structure BondCfg where
  maturity : RelDate
  initialRate : Rat
  premium : Rat
  period : RelDate
  buyDate : Dt
  capitalization : Bool
  continuationPremium : Rat
  initialCapital : Rat
  earlyBuyoutCost : Rat
  markEarlyBuyoutNotApplicable : Bool
  constantRate : Bool
deriving Repr

/-- The `till_date` argument of `get_interest_table`: an absolute `Date`
or a `RelativeDate` offset from the purchase date. -/
inductive TillArg where
  | date (d : Dt)
  | rel (r : RelDate)
deriving DecidableEq, Repr

/-- Errors raised while building the ledger. -/
inductive BondErr where
  | tillDateNotAfterBuyDate (till buy : Dt)
  | rateLookup (e : LookupErr)
  | unsupportedPeriod (p : RelDate)
deriving DecidableEq, Repr

/-- Model of `Bond._solve_till_date`: an absolute date must be strictly
after the purchase date (else an `AssertionError`), a relative offset is
added to the purchase date unconditionally. -/
def solveTillDate (cfg : BondCfg) : TillArg → Except BondErr Dt
  | .date d =>
      if dtLt cfg.buyDate d then .ok d
      else .error (.tillDateNotAfterBuyDate d cfg.buyDate)
  | .rel r => .ok (addRel cfg.buyDate r)

/-- Fuel-driven core of the `while cur_date < target: cur_date += step`
counting loops of `Bond._create_interest_table_index`. -/
def countWhileGo (target : Dt) (step : RelDate) : Dt → Nat → Nat
  | _, 0 => 0
  | cur, fuel + 1 =>
      if toRD cur < toRD target then countWhileGo target step (addRel cur step) fuel + 1
      else 0

/-- Number of loop iterations of `while cur_date < target` starting from
`startD` and stepping by `step`.  The fuel (one unit per calendar day
between the bounds, plus one) is enough for every step that advances the
date by at least one day, which holds for all `Maturity` / `Period`
values with positive components. -/
def countWhile (startD target : Dt) (step : RelDate) : Nat :=
  countWhileGo target step startD ((toRD target - toRD startD).toNat + 1)

/-- One `(instance, period)` group of the ledger: the per-group scalar
columns `rate` and `capital` plus per-day columns, over `dates` (day
numbers, ascending, with the intentional one-day overlap between
neighbouring groups). -/
structure LGroup where
  inst : Nat
  period : Nat
  dates : List Int
  rate : Rat
  capital : Rat
  interest : List Rat
  sumInterest : List Rat
  ebCost : List (Option Rat)
  contPremium : List Rat
deriving DecidableEq, Repr

/-- A group with empty columns, used as a `getD` default. -/
def emptyGroup : LGroup := ⟨0, 0, [], 0, 0, [], [], [], []⟩

/-- `periods_per_maturity` of `Bond._create_interest_table_index`. -/
def periodsPerMaturity (cfg : BondCfg) : Nat :=
  countWhile cfg.buyDate (addRel cfg.buyDate cfg.maturity) cfg.period

/-- `instances_per_request_date_range` of `Bond._create_interest_table_index`. -/
def numInstances (cfg : BondCfg) (endD : Dt) : Nat :=
  countWhile cfg.buyDate endD cfg.maturity

/-- Start date of period `p` of instance `i` (1-based):
`start_date + (instance-1)*maturity + (period-1)*period`, two successive
calendar additions as in the source. -/
def periodStart (cfg : BondCfg) (i p : Nat) : Dt :=
  addRel (addRel cfg.buyDate (scaleRel ((i : Int) - 1) cfg.maturity))
    (scaleRel ((p : Int) - 1) cfg.period)

/-- End date of period `p` of instance `i`:
`min([period_start + period, period_start + maturity])`. -/
def periodEnd (cfg : BondCfg) (i p : Nat) : Dt :=
  minDt (addRel (periodStart cfg i p) cfg.period)
    (addRel (periodStart cfg i p) cfg.maturity)

/-- Model of `Bond._create_interest_table_index`: for every instance
`1..instances` and period `1..periods_per_maturity`, one group whose days
run inclusively from the period's start to its end. -/
def createIndex (cfg : BondCfg) (endD : Dt) : List LGroup :=
  (List.range (numInstances cfg endD)).flatMap fun i0 =>
    (List.range (periodsPerMaturity cfg)).map fun p0 =>
      { emptyGroup with
        inst := i0 + 1
        period := p0 + 1
        dates := dateRange (toRD (periodStart cfg (i0 + 1) (p0 + 1)))
          (toRD (periodEnd cfg (i0 + 1) (p0 + 1))) }

/-- `Except`-valued map over a list, failing on the first error. -/
def mapExcept {ε α β : Type} (f : α → Except ε β) : List α → Except ε (List β)
  | [] => .ok []
  | a :: as =>
      match f a with
      | .error e => .error e
      | .ok b =>
          match mapExcept f as with
          | .error e => .error e
          | .ok bs => .ok (b :: bs)

/-- First date of instance `i` in the given group list (the date
`group.index[0][2]` of the `groupby(level="instance")` group). -/
def firstDateOfInst (groups : List LGroup) (i : Nat) : Int :=
  (((groups.filter (fun g => g.inst = i)).headD emptyGroup).dates).headD 0

/-- Model of `Bond._set_rates`: with `constant_rate` one lookup per
instance (at the instance's first date) applied to the whole instance,
otherwise one lookup per `(instance, period)` group (at the group's first
date); the premium is added to every looked-up rate; afterwards instance 1
(constant mode) resp. group `(1, 1)` (variable mode) is overridden to the
initial rate. -/
def setRates (cfg : BondCfg) (lookup : Int → Except LookupErr Rat)
    (groups : List LGroup) : Except BondErr (List LGroup) :=
  if cfg.constantRate then
    match mapExcept (fun g =>
        match lookup (firstDateOfInst groups g.inst) with
        | .error e => .error e
        | .ok r => .ok { g with rate := r + cfg.premium }) groups with
    | .error e => .error (.rateLookup e)
    | .ok gs =>
        .ok (gs.map fun g =>
          if g.inst = 1 then { g with rate := cfg.initialRate } else g)
  else
    match mapExcept (fun g =>
        match lookup (g.dates.headD 0) with
        | .error e => .error e
        | .ok r => .ok { g with rate := r + cfg.premium }) groups with
    | .error e => .error (.rateLookup e)
    | .ok gs =>
        .ok (gs.map fun g =>
          if g.inst = 1 ∧ g.period = 1 then { g with rate := cfg.initialRate } else g)

/-- Daily interest for a yearly reset period: the divisor is the number of
days in the calendar year of the day before the period's last date
(`(Date.from_pd_timestamp(period_df.index[-1]) -
RelativeDate(days=1)).number_of_days_in_year()`). -/
def yearlyVal (rate cap : Rat) (lastDate : Int) : Rat :=
  round8 (rate / 100 / ((daysInYear (ofRD (lastDate - 1)).year : Int) : Rat) * cap)

/-- Daily interest for a monthly reset period: `(rate/100) / 12 / num_days
* capital` with `num_days = len(period_df) - 1` (the `-1` accounts for the
overlap day). -/
def monthlyVal (rate cap : Rat) (n : Nat) : Rat :=
  round8 (rate / 100 / 12 / (((n : Int) - 1 : Int) : Rat) * cap)

/-- The daily interest value of a group in `Bond._set_interest` (same for
every day of the group but the first); any reset period other than
monthly / yearly raises a `TypeError`. -/
def dailyInterestVal (cfg : BondCfg) (g : LGroup) (cap : Rat) :
    Except BondErr Rat :=
  if cfg.period = yearlyRel then
    .ok (yearlyVal g.rate cap (g.dates.getLastD 0))
  else if cfg.period = monthlyRel then
    .ok (monthlyVal g.rate cap g.dates.length)
  else
    .error (.unsupportedPeriod cfg.period)

/-- Model of the interleaved generators `Bond._set_capital` /
`Bond._set_interest` (`Bond._calc_interest_and_capital`): one sequential
pass over the groups in instance-major, period-minor order.  `cur` is the
running `cur_capital` (reset to the initial capital at period 1, increased
by the previous period's rounded interest sum under capitalization) and
`prevSum` the previous group's interest sum (`Bond._capitalize` rounds it
to 2 decimals).  The assigned capital is `round(cur_capital, 2)`; the
interest list is the daily value everywhere except day one, which accrues
nothing. -/
def fillCapInt (cfg : BondCfg) : Rat → Rat → List LGroup → Except BondErr (List LGroup)
  | _, _, [] => .ok []
  | cur, prevSum, g :: gs =>
      let cur' := if g.period = 1 then cfg.initialCapital
        else if cfg.capitalization then cur + round2 prevSum
        else cur
      let capR := round2 cur'
      match dailyInterestVal cfg g capR with
      | .error e => .error e
      | .ok v =>
          let interest := (List.range g.dates.length).map fun j =>
            if j = 0 then (0 : Rat) else v
          match fillCapInt cfg cur' interest.sum gs with
          | .error e => .error e
          | .ok rest => .ok ({ g with capital := capR, interest := interest } :: rest)

/-- Cumulative sums starting from `acc`. -/
def cumsumFrom (acc : Rat) : List Rat → List Rat
  | [] => []
  | x :: xs => (acc + x) :: cumsumFrom (acc + x) xs

/-- Model of `Bond._set_cumulative_interest`: per instance, the running sum
of the interest column over all of the instance's rows in index order
(continuing across the instance's periods, restarting at 0 on a new
instance). -/
def setCumulative (curInst : Option Nat) (acc : Rat) : List LGroup → List LGroup
  | [] => []
  | g :: gs =>
      let acc' := if some g.inst = curInst then acc else 0
      let s := cumsumFrom acc' g.interest
      { g with sumInterest := s } :: setCumulative (some g.inst) (s.getLastD acc') gs

/-- Per-day cap of `Bond._set_early_buyout_cost`:
`sum_interest.combine(early_buyout_cost, min)`. -/
def ebCap (cost : Rat) (g : LGroup) : LGroup :=
  { g with ebCost := g.sumInterest.map fun s => some (min s cost) }

/-- Mark rows `o ≤ pos < o + len` of a group as not-applicable when their
position `pos` within the instance falls in the first 7 or last 20 rows of
the instance (`instance_df.index[:7]` / `index[-20:]`, instance row count
`n`). -/
def markGroupNA (o n : Nat) (g : LGroup) : LGroup :=
  { g with
    ebCost := (g.ebCost.zip (List.range g.ebCost.length)).map fun ej =>
      if o + ej.2 < 7 ∨ n ≤ o + ej.2 + 20 then none else ej.1 }

/-- Model of `Bond._set_early_buyout_cost`: cap the cumulative interest at
the flat early-buyout cost, then (only when
`mark_early_buyout_not_applicable` is set) replace the first 7 and last 20
rows of every instance by NA.  The instance of a group is selected by
label (`xs(instance, level="instance")`), i.e. by filtering on the
instance value; offsets follow the index order. -/
def setEB (cfg : BondCfg) (groups : List LGroup) : List LGroup :=
  let capped := groups.map (ebCap cfg.earlyBuyoutCost)
  if cfg.markEarlyBuyoutNotApplicable then
    (capped.zip (List.range capped.length)).map fun gk =>
      let n := (((capped.filter (fun h => h.inst = gk.1.inst)).map
        (fun h => h.dates.length)).sum)
      let o := ((((capped.take gk.2).filter (fun h => h.inst = gk.1.inst)).map
        (fun h => h.dates.length)).sum)
      markGroupNA o n gk.1
  else capped

/-- Model of `Bond._set_continuation_premium`: the column is zero
everywhere except that, for every instance after the first
(`unique()[1:]`), the instance's first row — the first date of its
period-1 group — receives the configured continuation premium. -/
def setCont (cfg : BondCfg) (groups : List LGroup) : List LGroup :=
  match groups with
  | [] => []
  | g0 :: _ =>
      groups.map fun g =>
        let zeros := g.dates.map fun _ => (0 : Rat)
        if ¬ g.inst = g0.inst ∧ g.period = 1 then
          { g with contPremium := zeros.set 0 cfg.continuationPremium }
        else { g with contPremium := zeros }

/-- Model of `Bond.get_interest_table(till_date)` on a fresh bond: resolve
the horizon, build the `(instance, period, date)` index, then run the
workflow `(_set_rates, _calc_interest_and_capital,
_set_cumulative_interest, _set_early_buyout_cost,
_set_continuation_premium)` in order. -/
def buildLedger (cfg : BondCfg) (lookup : Int → Except LookupErr Rat)
    (till : TillArg) : Except BondErr (List LGroup) :=
  match solveTillDate cfg till with
  | .error e => .error e
  | .ok endD =>
      match setRates cfg lookup (createIndex cfg endD) with
      | .error e => .error e
      | .ok g1 =>
          match fillCapInt cfg cfg.initialCapital 0 g1 with
          | .error e => .error e
          | .ok g2 => .ok (setCont cfg (setEB cfg (setCumulative none 0 g2)))

/-- Successful result of a ledger build (`[]` on error). -/
def okGroups : Except BondErr (List LGroup) → List LGroup
  | .ok l => l
  | .error _ => []

/-! ## Profit Aggregator (`Profit`)

`Profit` consumes the flattened ledger.  `flattenLedger` turns the group
representation back into one row per `(instance, period, date)` key,
already projected — as `Profit._select_columns` does — to the columns
`interest`, `early_buyout_cost`, `continuation_premium`. -/

/-- One ledger row as seen by the Profit aggregator. -/
structure PRow where
  inst : Nat
  period : Nat
  date : Int
  interest : Rat
  ebCost : Option Rat
  contPremium : Rat
deriving DecidableEq, Repr

/-- Flatten a group ledger to its rows in index order. -/
def flattenLedger (gs : List LGroup) : List PRow :=
  gs.flatMap fun g =>
    (g.dates.zip (List.range g.dates.length)).map fun dj =>
      { inst := g.inst, period := g.period, date := dj.1,
        interest := g.interest.getD dj.2 0,
        ebCost := g.ebCost.getD dj.2 none,
        contPremium := g.contPremium.getD dj.2 0 }

/-- Model of `Profit._replace_early_buyout_cost_nan_with_zero`. -/
def replaceEbNan (t : List PRow) : List PRow :=
  t.map fun r => { r with ebCost := some (r.ebCost.getD 0) }

/-- Insert into a strictly sorted list keeping it sorted and duplicate-free. -/
def insertSorted (x : Int) : List Int → List Int
  | [] => [x]
  | y :: ys =>
      if x < y then x :: y :: ys
      else if x = y then y :: ys
      else y :: insertSorted x ys

/-- Sorted, duplicate-free list of the values of `l` (the group keys of a
pandas `groupby`, which sorts its keys). -/
def sortedDedup (l : List Int) : List Int := l.foldr insertSorted []

/-- Maximum of a list of rationals (0 for the empty list; `groupby.max`
only ever takes it over a non-empty group). -/
def listMax : List Rat → Rat
  | [] => 0
  | x :: xs => xs.foldl max x

/-- A row of the profit curve (date plus the aggregated columns). -/
structure GRow where
  date : Int
  interest : Rat
  ebCost : Rat
  contPremium : Rat
  sumInterest : Rat
  sumContPremium : Rat
  total : Rat
deriving DecidableEq, Repr

/-- Model of `Profit._set_profits_table`: collapse the rows to one row per
calendar date, taking for each column the maximum over all rows sharing
that date (the pandas `groupby(level=["date"]).max()`, keys sorted
ascending); the cumulative and total columns start at 0. -/
def setProfitsTable (t : List PRow) : List GRow :=
  (sortedDedup (t.map (fun r => r.date))).map fun d =>
    let rows := t.filter (fun r => r.date = d)
    { date := d
      interest := listMax (rows.map (fun r => r.interest))
      ebCost := listMax (rows.map (fun r => r.ebCost.getD 0))
      contPremium := listMax (rows.map (fun r => r.contPremium))
      sumInterest := 0, sumContPremium := 0, total := 0 }

/-- Model of `Profit._set_cumulative_cols`: running sums of the interest
and continuation-premium columns over the date-sorted curve. -/
def setCumulativeCols (si sc : Rat) : List GRow → List GRow
  | [] => []
  | r :: rs =>
      let si' := si + r.interest
      let sc' := sc + r.contPremium
      { r with sumInterest := si', sumContPremium := sc' }
        :: setCumulativeCols si' sc' rs

/-- Model of `Profit._set_total`:
`total = sum_interest - early_buyout_cost + sum_continuation_premium`. -/
def setTotal (rows : List GRow) : List GRow :=
  rows.map fun r => { r with total := r.sumInterest - r.ebCost + r.sumContPremium }

/-- The profit workflow run by `Profit.calc_total` on a captured table:
`_select_columns` (already performed by `flattenLedger`),
`_replace_early_buyout_cost_nan_with_zero`, `_set_profits_table`,
`_set_cumulative_cols`, `_set_total`.  The `till_date` argument is part of
the signature but never read by the source. -/
def calcTotal (src : List PRow) (tillDate : TillArg) : List GRow :=
  setTotal (setCumulativeCols 0 0 (setProfitsTable (replaceEbNan src)))

/-! ### Object identity: the private copy taken by `Profit.__init__`

To express that `Profit` never mutates the engine's table, DataFrame
objects live in a small heap (a list of tables addressed by index).
`Profit.__init__` appends a fresh copy of the source table;
the in-place workflow steps write through the Profit object's own
reference only. -/

/-- A heap of DataFrame objects; a reference is an index into the list. -/
abbrev DfHeap : Type := List (List PRow)

/-- Dereference (`[]` for a dangling reference). -/
def heapGet (h : DfHeap) (r : Nat) : List PRow := h.getD r []

/-- Write through a reference. -/
def heapSet (h : DfHeap) (r : Nat) (t : List PRow) : DfHeap := h.set r t

/-- Model of `Profit.__init__(interest_table)`: allocate
`interest_table.copy()` as a fresh object and keep a reference to it;
returns the new heap and the Profit object's table reference. -/
def profitInit (h : DfHeap) (srcRef : Nat) : DfHeap × Nat :=
  (h ++ [heapGet h srcRef], h.length)

/-- Model of `Profit.calc_total(till_date)` on the heap: the in-place
steps (`_select_columns`, `_replace_early_buyout_cost_nan_with_zero`)
rewrite the table behind the Profit object's reference, the remaining
steps only build the separate `profits` table. -/
def calcTotalHeap (h : DfHeap) (pRef : Nat) (tillDate : TillArg) :
    DfHeap × List GRow :=
  let h1 := heapSet h pRef (replaceEbNan (heapGet h pRef))
  (h1, setTotal (setCumulativeCols 0 0 (setProfitsTable (heapGet h1 pRef))))

/-! ## Auxiliary definitions for the claim analysis -/

instance {ε α : Type} [DecidableEq ε] [DecidableEq α] : DecidableEq (Except ε α) := fun x y =>
  match x, y with
  | .ok u, .ok v => decidable_of_iff (u = v) (by simp)
  | .error u, .error v => decidable_of_iff (u = v) (by simp)
  | .ok _, .error _ => isFalse (by simp)
  | .error _, .ok _ => isFalse (by simp)

/-- Value of the last segment `(v, s, e)` of the list whose clipped span
`[max s a, min e b]` contains `x` (the segments are assigned left to
right, so the rightmost assignment wins). -/
def lastHit (a b x : Int) : List (Rat × Int × Int) → Option Rat
  | [] => none
  | vse :: rest =>
      match lastHit a b x rest with
      | some w => some w
      | none =>
          if max vse.2.1 a ≤ x ∧ x ≤ min vse.2.2 b then some vse.1 else none

/-- The segment list built by `set_rates_continuously` from breakpoints
`dates` and `index[-1] = L`: consecutive inclusive spans
`[dates[i], dates[i+1]]` (the last one ending at `L`), paired with their
values. -/
def contSegs (values : List Rat) (dates : List Int) (L : Int) :
    List (Rat × Int × Int) :=
  values.zip ((dates ++ [L]).zip (dates ++ [L]).tail)

/-- A profit-curve row of zeroes, used as a `getD` default. -/
def emptyGRow : GRow := ⟨0, 0, 0, 0, 0, 0, 0⟩

/-- The period end as claim C4 words it (spec §4.2): `min(period_start +
reset_period, instance_start + maturity)` — kept separate from the
source-derived `periodEnd` for comparison. -/
def claimPeriodEnd (cfg : BondCfg) (i p : Nat) : Dt :=
  minDt (addRel (periodStart cfg i p) cfg.period)
    (addRel (periodStart cfg i 1) cfg.maturity)

/-- A constant reference-rate lookup returning 3 percent for every day. -/
def constLookup3 : Int → Except LookupErr Rat := fun _ => .ok 3

/-- A monthly-reset bond: 1-month maturity, bought 2024-01-01, initial
rate 5, no premium, no capitalization. -/
def cfgMonthly : BondCfg :=
  ⟨⟨0, 1, 0⟩, 5, 0, monthlyRel, ⟨2024, 1, 1⟩, false, 0.1, 100, 1000, false, false⟩

/-- Horizon one day after the purchase of `cfgMonthly` (one instance). -/
def tillMonthly : TillArg := .date ⟨2024, 1, 2⟩

/-- The ledger of `cfgMonthly` (one group of 32 days). -/
def gsMonthly : List LGroup := okGroups (buildLedger cfgMonthly constLookup3 tillMonthly)

/-- Its single group. -/
def gMonthly : LGroup := gsMonthly.headD emptyGroup

/-- A yearly-reset bond whose single period ends on a January 1st:
1-month maturity bought 2020-12-01, so period 1 spans
2020-12-01 … 2021-01-01. -/
def cfgYearlyJan : BondCfg :=
  ⟨⟨0, 1, 0⟩, 5, 0, yearlyRel, ⟨2020, 12, 1⟩, false, 0.1, 100, 1000, false, false⟩

/-- Horizon one day after the purchase of `cfgYearlyJan`. -/
def tillYearly : TillArg := .date ⟨2020, 12, 2⟩

/-- The ledger of `cfgYearlyJan` (one group of 32 days). -/
def gsYearlyJan : List LGroup :=
  okGroups (buildLedger cfgYearlyJan constLookup3 tillYearly)

/-- Its single group. -/
def gYearlyJan : LGroup := gsYearlyJan.headD emptyGroup

/-- A monthly-reset bond observed over two instances: 1-month maturity
bought 2024-01-01 with horizon 2024-02-02, initial rate 6.15, premium 1. -/
def cfgTwoInst : BondCfg :=
  ⟨⟨0, 1, 0⟩, 6.15, 1, monthlyRel, ⟨2024, 1, 1⟩, false, 0.1, 100, 100, false, false⟩

/-- The two-instance ledger of `cfgTwoInst`. -/
def gsTwoInst : List LGroup :=
  okGroups (buildLedger cfgTwoInst constLookup3 (.date ⟨2024, 2, 2⟩))

/-- A bond whose reset period (yearly) does not evenly divide its
maturity (1 year 6 months), bought 2020-01-01. -/
def cfgLongMat : BondCfg :=
  ⟨⟨1, 6, 0⟩, 5, 1, yearlyRel, ⟨2020, 1, 1⟩, false, 0.1, 100, 0, false, false⟩

/-- A monthly bond with a negative initial-rate override (accepted by the
constructor without validation). -/
def cfgNegRate : BondCfg :=
  ⟨⟨0, 1, 0⟩, -5, 0, monthlyRel, ⟨2024, 1, 1⟩, false, 0.1, 100, 0, false, false⟩

/-- The profit curve computed from the ledger of `cfgNegRate`. -/
def curveNegRate : List GRow :=
  calcTotal (flattenLedger (okGroups (buildLedger cfgNegRate constLookup3 tillMonthly)))
    (.rel ⟨0, 0, 1⟩)

/-- A store where the overall index (days 100..200, extended by series
"X") is wider than the populated range of `NBP:REF` (day 100 only). -/
def stC5 : RatesStore :=
  setRatesCont (setRatesCont emptyStore nbprefName [1] [100] none)
    "X" [2, 3] [100, 200] none

/-- A one-row ledger table for the Profit heap witness. -/
def rowW : PRow := ⟨1, 1, 0, 1, none, 0⟩

/-- A one-object heap holding that table. -/
def heapW : DfHeap := [[rowW]]
/-! ## Supporting lemmas -/

/-- Membership in `dateRangeGo`. -/
theorem mem_dateRangeGo (n : Nat) : ∀ (a x : Int), x ∈ dateRangeGo a n ↔ a ≤ x ∧ x < a + n := by
  induction n with
  | zero => intro a x; simp [dateRangeGo]
  | succ m ih => intro a x; simp [dateRangeGo, ih]; omega

/-- Membership in an inclusive day range. -/
theorem mem_dateRange {a b d : Int} : d ∈ dateRange a b ↔ a ≤ d ∧ d ≤ b := by
  unfold dateRange
  rw [mem_dateRangeGo]
  omega

/-! ## Claim C7: till-date resolution -/

/-- C7: `get_interest_table`'s till-date resolution accepts an absolute
date exactly when it is strictly after the purchase date (otherwise it
fails with the validation error), and resolves a relative offset to
`purchase date + offset` without any check. -/
theorem till_date_validation (cfg : BondCfg) :
    (∀ d : Dt, dtLt cfg.buyDate d → solveTillDate cfg (.date d) = .ok d) ∧
    (∀ d : Dt, ¬ dtLt cfg.buyDate d →
      solveTillDate cfg (.date d) = .error (.tillDateNotAfterBuyDate d cfg.buyDate)) ∧
    (∀ r : RelDate, solveTillDate cfg (.rel r) = .ok (addRel cfg.buyDate r)) := by
  refine ⟨fun d h => ?_, fun d h => ?_, fun r => rfl⟩
  · simp [solveTillDate, h]
  · simp [solveTillDate, h]

/-- C7 witness: concrete runs of the till-date resolution. -/
theorem till_date_validation_witness :
    solveTillDate cfgMonthly (.date ⟨2024, 1, 2⟩) = .ok ⟨2024, 1, 2⟩ ∧
    solveTillDate cfgMonthly (.date ⟨2023, 1, 1⟩) =
      .error (.tillDateNotAfterBuyDate ⟨2023, 1, 1⟩ cfgMonthly.buyDate) ∧
    solveTillDate cfgMonthly (.rel ⟨0, 0, 5⟩) = .ok (addRel cfgMonthly.buyDate ⟨0, 0, 5⟩) :=
  ⟨(till_date_validation cfgMonthly).1 ⟨2024, 1, 2⟩ (by decide),
   (till_date_validation cfgMonthly).2.1 ⟨2023, 1, 1⟩ (by decide),
   (till_date_validation cfgMonthly).2.2 ⟨0, 0, 5⟩⟩

/-! ## Claim C10: `calc_total` ignores `till_date` -/

/-- Dates are untouched by the NaN-replacement step. -/
theorem map_date_replaceEbNan (src : List PRow) :
    (replaceEbNan src).map (fun r => r.date) = src.map (fun r => r.date) := by
  unfold replaceEbNan
  rw [List.map_map]
  rfl

/-- Dates are untouched by the cumulative step. -/
theorem map_date_setCumulativeCols (l : List GRow) :
    ∀ si sc, (setCumulativeCols si sc l).map (fun r => r.date) = l.map (fun r => r.date) := by
  induction l with
  | nil => intro si sc; rfl
  | cons r rs ih => intro si sc; simp [setCumulativeCols, ih]

/-- Dates are untouched by the total step. -/
theorem map_date_setTotal (l : List GRow) :
    (setTotal l).map (fun r => r.date) = l.map (fun r => r.date) := by
  unfold setTotal
  rw [List.map_map]
  rfl

/-- The collapsed table's index is the sorted set of distinct dates. -/
theorem map_date_setProfitsTable (t : List PRow) :
    (setProfitsTable t).map (fun r => r.date) = sortedDedup (t.map (fun r => r.date)) := by
  unfold setProfitsTable
  rw [List.map_map]
  exact List.map_id _

/-- C10: the profit curve is independent of the `till_date` argument (it
is never read), and its index is exactly the sorted set of distinct dates
of the table captured at construction. -/
theorem calc_total_ignores_till_date (src : List PRow) (t1 t2 : TillArg) :
    calcTotal src t1 = calcTotal src t2 ∧
    (calcTotal src t1).map (fun r => r.date) = sortedDedup (src.map (fun r => r.date)) := by
  refine ⟨rfl, ?_⟩
  unfold calcTotal
  rw [map_date_setTotal, map_date_setCumulativeCols, map_date_setProfitsTable,
    map_date_replaceEbNan]

/-! ## Claim C9: `Profit` never mutates the engine's ledger -/

/-- C9: building a Profit object (which copies the source table into a
fresh object) and running `calc_total` leaves the engine's table
unchanged on the heap. -/
theorem profit_no_mutation (h : DfHeap) (srcRef : Nat) (till : TillArg)
    (hlt : srcRef < h.length) :
    heapGet (calcTotalHeap (profitInit h srcRef).1 (profitInit h srcRef).2 till).1 srcRef
      = heapGet h srcRef := by
  show heapGet (heapSet (h ++ [heapGet h srcRef]) h.length _) srcRef = _
  unfold heapGet heapSet
  rw [List.getD_eq_getElem?_getD, List.getElem?_set_ne (by omega)]
  rw [← List.getD_eq_getElem?_getD, List.getD_append _ _ _ _ hlt]

/-- C9 witness: a concrete one-table heap is untouched by the profit run. -/
theorem profit_no_mutation_witness :
    heapGet (calcTotalHeap (profitInit heapW 0).1 (profitInit heapW 0).2 (.rel ⟨0, 0, 1⟩)).1 0
      = heapGet heapW 0 :=
  profit_no_mutation heapW 0 (.rel ⟨0, 0, 1⟩) (by decide)

/-! ## Ledger-pipeline transport lemmas

The columns written by the later workflow stages never touch the key
columns nor the rate / capital / interest columns; these lemmas transport
a group of the finished ledger back to the stage that wrote the column of
interest. -/

/-- Fields preserved by the post-interest stages. -/
def sameCore (g g0 : LGroup) : Prop :=
  g.inst = g0.inst ∧ g.period = g0.period ∧ g.dates = g0.dates ∧
    g.rate = g0.rate ∧ g.capital = g0.capital ∧ g.interest = g0.interest

theorem sameCore_trans {g g1 g2 : LGroup} (h : sameCore g g1) (h2 : sameCore g1 g2) :
    sameCore g g2 := by
  obtain ⟨a1, a2, a3, a4, a5, a6⟩ := h
  obtain ⟨b1, b2, b3, b4, b5, b6⟩ := h2
  exact ⟨a1.trans b1, a2.trans b2, a3.trans b3, a4.trans b4, a5.trans b5, a6.trans b6⟩

/-- `_set_continuation_premium` only writes the continuation column. -/
theorem setCont_core (cfg : BondCfg) (l : List LGroup) :
    ∀ g ∈ setCont cfg l, ∃ g0 ∈ l, sameCore g g0 := by
  intro g hg
  cases l with
  | nil => simp [setCont] at hg
  | cons h0 t =>
      simp only [setCont, List.mem_map] at hg
      obtain ⟨g0, hg0, rfl⟩ := hg
      refine ⟨g0, hg0, ?_⟩
      by_cases hc : ¬ g0.inst = h0.inst ∧ g0.period = 1 <;>
        simp [hc, sameCore]

/-- `_set_early_buyout_cost` only writes the buyout column. -/
theorem setEB_core (cfg : BondCfg) (l : List LGroup) :
    ∀ g ∈ setEB cfg l, ∃ g0 ∈ l, sameCore g g0 := by
  intro g hg
  unfold setEB at hg
  by_cases hm : cfg.markEarlyBuyoutNotApplicable = true
  · simp only [hm, if_true] at hg
    rw [List.mem_map] at hg
    obtain ⟨⟨gg, k⟩, hgk, rfl⟩ := hg
    have hmem := (List.of_mem_zip hgk).1
    rw [List.mem_map] at hmem
    obtain ⟨g0, hg0, rfl⟩ := hmem
    exact ⟨g0, hg0, by simp [markGroupNA, ebCap, sameCore]⟩
  · rw [Bool.not_eq_true] at hm
    rw [hm, if_neg Bool.false_ne_true] at hg
    rw [List.mem_map] at hg
    obtain ⟨g0, hg0, rfl⟩ := hg
    exact ⟨g0, hg0, by simp [ebCap, sameCore]⟩

/-- `_set_cumulative_interest` only writes the cumulative column. -/
theorem setCumulative_core (l : List LGroup) :
    ∀ ci acc, ∀ g ∈ setCumulative ci acc l, ∃ g0 ∈ l, sameCore g g0 := by
  induction l with
  | nil => intro ci acc g hg; simp [setCumulative] at hg
  | cons h0 t ih =>
      intro ci acc g hg
      simp only [setCumulative, List.mem_cons] at hg
      rcases hg with rfl | hg
      · exact ⟨h0, List.mem_cons_self h0 t, by simp [sameCore]⟩
      · obtain ⟨g0, hg0, hc⟩ := ih _ _ g hg
        exact ⟨g0, List.mem_cons_of_mem h0 hg0, hc⟩

/-- Transport through the three post-interest stages at once. -/
theorem postStages_core (cfg : BondCfg) (l : List LGroup) :
    ∀ g ∈ setCont cfg (setEB cfg (setCumulative none 0 l)), ∃ g0 ∈ l, sameCore g g0 := by
  intro g hg
  obtain ⟨g1, hg1, c1⟩ := setCont_core cfg _ g hg
  obtain ⟨g2, hg2, c2⟩ := setEB_core cfg _ g1 hg1
  obtain ⟨g0, hg0, c3⟩ := setCumulative_core _ none 0 g2 hg2
  exact ⟨g0, hg0, sameCore_trans (sameCore_trans c1 c2) c3⟩

/-- The capital-and-interest pass keeps the keys, the dates and the rate
of every group, and fills the interest column with zero on the first day
and the period's daily value on every later day. -/
theorem fillCapInt_shape (cfg : BondCfg) :
    ∀ (l : List LGroup) (cur prevSum : Rat) (l2 : List LGroup),
      fillCapInt cfg cur prevSum l = .ok l2 →
      ∀ g ∈ l2, ∃ g1 ∈ l,
        g.inst = g1.inst ∧ g.period = g1.period ∧ g.dates = g1.dates ∧
        g.rate = g1.rate ∧
        ∃ v, dailyInterestVal cfg g1 g.capital = .ok v ∧
          g.interest = (List.range g.dates.length).map
            (fun j => if j = 0 then (0 : Rat) else v) := by
  intro l
  induction l with
  | nil =>
      intro cur prevSum l2 h g hg
      simp only [fillCapInt] at h
      cases h
      simp at hg
  | cons g1 t ih =>
      intro cur prevSum l2 h g hg
      simp only [fillCapInt] at h
      generalize hcc : (if g1.period = 1 then cfg.initialCapital
        else if cfg.capitalization = true then cur + round2 prevSum else cur) = cc at h
      split at h
      · cases h
      · rename_i v hv
        split at h
        · cases h
        · rename_i rest hrest
          injection h with h2
          subst h2
          rcases List.mem_cons.mp hg with rfl | hgr
          · exact ⟨g1, List.mem_cons_self g1 t, rfl, rfl, rfl, rfl, v, hv, rfl⟩
          · obtain ⟨gg, hgg, hrel⟩ := ih _ _ rest hrest g hgr
            exact ⟨gg, List.mem_cons_of_mem g1 hgg, hrel⟩

/-- `_set_rates` forces the initial rate on the override target: any
group of the rate-assigned ledger with instance 1 and period 1 carries
the bond's initial rate, whatever the lookups returned. -/
theorem setRates_override (cfg : BondCfg) (lookup : Int → Except LookupErr Rat)
    (groups gs : List LGroup) (h : setRates cfg lookup groups = .ok gs) :
    ∀ g ∈ gs, g.inst = 1 → g.period = 1 → g.rate = cfg.initialRate := by
  intro g hg h1 hp
  unfold setRates at h
  by_cases hcr : cfg.constantRate = true
  · rw [hcr, if_pos rfl] at h
    cases hmap : mapExcept (fun g =>
        match lookup (firstDateOfInst groups g.inst) with
        | .error e => .error e
        | .ok r => .ok { g with rate := r + cfg.premium }) groups with
    | error e => rw [hmap] at h; simp at h
    | ok gsm =>
      rw [hmap] at h
      simp only [Except.ok.injEq] at h
      subst h
      rw [List.mem_map] at hg
      obtain ⟨g0, _, rfl⟩ := hg
      by_cases hc : g0.inst = 1
      · rw [if_pos hc]
      · rw [if_neg hc] at h1
        exact absurd h1 hc
  · rw [Bool.not_eq_true] at hcr
    rw [hcr, if_neg Bool.false_ne_true] at h
    cases hmap : mapExcept (fun g =>
        match lookup (g.dates.headD 0) with
        | .error e => .error e
        | .ok r => .ok { g with rate := r + cfg.premium }) groups with
    | error e => rw [hmap] at h; simp at h
    | ok gsm =>
      rw [hmap] at h
      simp only [Except.ok.injEq] at h
      subst h
      rw [List.mem_map] at hg
      obtain ⟨g0, _, rfl⟩ := hg
      by_cases hc : g0.inst = 1 ∧ g0.period = 1
      · rw [if_pos hc]
      · rw [if_neg hc] at h1 hp
        exact absurd ⟨h1, hp⟩ hc

/-- The group at position `k` of a bond's finished ledger (`emptyGroup`
past the end or on a failed build). -/
def ledgerGroup (cfg : BondCfg) (lookup : Int → Except LookupErr Rat)
    (till : TillArg) (k : Nat) : LGroup :=
  (okGroups (buildLedger cfg lookup till)).getD k emptyGroup

/-! ## Claim C1: the initial-rate override -/

/-- C1 counterexample: in the two-instance ledger of `cfgTwoInst`, the
day-1 rate of period 1 of instance 2 is the looked-up rate plus premium
(3 + 1 = 4), not the initial-rate override 6.15 — the override only ever
targets instance 1. -/
theorem rate_override_counterexample :
    (gsTwoInst.getD 1 emptyGroup).inst = 2 ∧
    (gsTwoInst.getD 1 emptyGroup).period = 1 ∧
    (gsTwoInst.getD 1 emptyGroup).rate = 4 ∧
    ¬ (gsTwoInst.getD 1 emptyGroup).rate = cfgTwoInst.initialRate := by
  refine ⟨by decide, by decide, by decide!, by decide!⟩

/-- C1 (amended): in every successfully built ledger, the rate carried by
period 1 of the FIRST instance equals the bond's initial-rate override,
regardless of what the reference-rate lookups return. -/
theorem rate_override_first_instance (cfg : BondCfg)
    (lookup : Int → Except LookupErr Rat) (till : TillArg) (k : Nat)
    (hk : k < (okGroups (buildLedger cfg lookup till)).length)
    (h1 : (ledgerGroup cfg lookup till k).inst = 1)
    (hp : (ledgerGroup cfg lookup till k).period = 1) :
    (ledgerGroup cfg lookup till k).rate = cfg.initialRate := by
  have hg : ledgerGroup cfg lookup till k ∈ okGroups (buildLedger cfg lookup till) := by
    unfold ledgerGroup
    rw [List.getD_eq_getElem _ _ hk]
    exact List.getElem_mem hk
  set g := ledgerGroup cfg lookup till k with hgdef
  clear hgdef hk
  cases hb : buildLedger cfg lookup till with
  | error e => rw [hb] at hg; simp [okGroups] at hg
  | ok gs =>
      rw [hb] at hg
      simp only [okGroups] at hg
      unfold buildLedger at hb
      split at hb
      · cases hb
      · rename_i endD hs
        split at hb
        · cases hb
        · rename_i l1 hr
          split at hb
          · cases hb
          · rename_i l2 hf
            injection hb with hb2
            subst hb2
            obtain ⟨gc, hgc, core⟩ := postStages_core cfg l2 g hg
            obtain ⟨gr, hgr, k1, k2, _, k4, _⟩ :=
              fillCapInt_shape cfg l1 cfg.initialCapital 0 l2 hf gc hgc
            have hi : gr.inst = 1 := by rw [← k1, ← core.1]; exact h1
            have hpp : gr.period = 1 := by rw [← k2, ← core.2.1]; exact hp
            have hrr : gr.rate = cfg.initialRate :=
              setRates_override cfg lookup _ l1 hr gr hgr hi hpp
            rw [core.2.2.2.1, k4, hrr]

/-- C1 witness: in the concrete ledger of `cfgMonthly`, the group at
position 0 is (instance 1, period 1) and carries the initial rate 5. -/
theorem rate_override_first_instance_witness :
    0 < (okGroups (buildLedger cfgMonthly constLookup3 tillMonthly)).length ∧
    (ledgerGroup cfgMonthly constLookup3 tillMonthly 0).inst = 1 ∧
    (ledgerGroup cfgMonthly constLookup3 tillMonthly 0).period = 1 ∧
    (ledgerGroup cfgMonthly constLookup3 tillMonthly 0).rate = cfgMonthly.initialRate :=
  ⟨by decide, by decide, by decide,
   rate_override_first_instance cfgMonthly constLookup3 tillMonthly 0
     (by decide) (by decide) (by decide)⟩

/-! ## Claims C2 and C3: the daily-interest formulas -/

/-- Reading a non-first position of an interest column built by the
capital-and-interest pass yields the daily value. -/
theorem getD_interest_map (n j : Nat) (v : Rat) (hj : j < n) (hj0 : 0 < j) :
    ((List.range n).map (fun i => if i = 0 then (0 : Rat) else v)).getD j 0 = v := by
  rw [List.getD_eq_getElem?_getD, List.getElem?_map, List.getElem?_range hj]
  simp [Nat.pos_iff_ne_zero.mp hj0]

/-- Common core of C2 / C3: every non-first day of every group of a built
ledger carries the value `dailyInterestVal` computed from the group's own
rate, capital and date span. -/
theorem ledger_interest_value (cfg : BondCfg)
    (lookup : Int → Except LookupErr Rat) (till : TillArg) (k j : Nat)
    (hk : k < (okGroups (buildLedger cfg lookup till)).length)
    (hj0 : 0 < j) (hj : j < (ledgerGroup cfg lookup till k).interest.length) :
    (ledgerGroup cfg lookup till k).interest.length
        = (ledgerGroup cfg lookup till k).dates.length ∧
    ∃ v, dailyInterestVal cfg (ledgerGroup cfg lookup till k)
        (ledgerGroup cfg lookup till k).capital = .ok v ∧
      (ledgerGroup cfg lookup till k).interest.getD j 0 = v := by
  have hg : ledgerGroup cfg lookup till k ∈ okGroups (buildLedger cfg lookup till) := by
    unfold ledgerGroup
    rw [List.getD_eq_getElem _ _ hk]
    exact List.getElem_mem hk
  set g := ledgerGroup cfg lookup till k with hgdef
  clear hgdef hk
  cases hb : buildLedger cfg lookup till with
  | error e => rw [hb] at hg; simp [okGroups] at hg
  | ok gs =>
      rw [hb] at hg
      simp only [okGroups] at hg
      unfold buildLedger at hb
      split at hb
      · cases hb
      · rename_i endD hs
        split at hb
        · cases hb
        · rename_i l1 hr
          split at hb
          · cases hb
          · rename_i l2 hf
            injection hb with hb2
            subst hb2
            obtain ⟨gc, hgc, core⟩ := postStages_core cfg l2 g hg
            obtain ⟨g1, hg1, k1, k2, k3, k4, v, hv, hint⟩ :=
              fillCapInt_shape cfg l1 cfg.initialCapital 0 l2 hf gc hgc
            obtain ⟨c1, c2, c3, c4, c5, c6⟩ := core
            have hvg : dailyInterestVal cfg g g.capital = .ok v := by
              unfold dailyInterestVal at hv ⊢
              rw [c4, k4, c3, k3, c5]
              exact hv
            have hlen : g.interest.length = g.dates.length := by
              rw [c6, hint, List.length_map, List.length_range, c3]
            refine ⟨hlen, v, hvg, ?_⟩
            rw [c6, hint]
            have hjn : j < gc.dates.length := by
              rw [hlen, c3] at hj
              exact hj
            exact getD_interest_map _ j v hjn hj0

/-- C2 counterexample: for the monthly bond `cfgMonthly`, the interest of
the second day of period 1 is NOT `(rate/100) × capital ÷ (days-1)` — the
claim's formula is off by the missing factor 1/12 (the code computes
`rate/100/12/(days-1) × capital`). -/
theorem monthly_interest_counterexample :
    0 < (okGroups (buildLedger cfgMonthly constLookup3 tillMonthly)).length ∧
    (ledgerGroup cfgMonthly constLookup3 tillMonthly 0).interest.getD 1 0 =
      round8 ((5 : Rat) / 100 / 12 / 31 * 100) ∧
    ¬ (ledgerGroup cfgMonthly constLookup3 tillMonthly 0).interest.getD 1 0 =
      round8 ((ledgerGroup cfgMonthly constLookup3 tillMonthly 0).rate / 100 /
        ((((ledgerGroup cfgMonthly constLookup3 tillMonthly 0).dates.length : Int) - 1 : Int) : Rat) *
        (ledgerGroup cfgMonthly constLookup3 tillMonthly 0).capital) := by
  refine ⟨by decide!, by decide!, by decide!⟩

/-- C2 (amended): for a monthly-reset bond, the interest of every day
after the first day of a period equals `(rate/100) ÷ 12 × capital ÷
(days-in-period − 1)`, rounded to 8 decimals, where days-in-period counts
the rows of the period including the overlap day. -/
theorem monthly_interest_formula (cfg : BondCfg)
    (lookup : Int → Except LookupErr Rat) (till : TillArg) (k j : Nat)
    (hper : cfg.period = monthlyRel)
    (hk : k < (okGroups (buildLedger cfg lookup till)).length)
    (hj0 : 0 < j) (hj : j < (ledgerGroup cfg lookup till k).interest.length) :
    (ledgerGroup cfg lookup till k).interest.getD j 0 =
      round8 ((ledgerGroup cfg lookup till k).rate / 100 / 12 /
        ((((ledgerGroup cfg lookup till k).dates.length : Int) - 1 : Int) : Rat) *
        (ledgerGroup cfg lookup till k).capital) := by
  obtain ⟨hlen, v, hv, hval⟩ := ledger_interest_value cfg lookup till k j hk hj0 hj
  rw [hval]
  unfold dailyInterestVal at hv
  rw [hper] at hv
  rw [if_neg (by decide), if_pos rfl] at hv
  injection hv with hv2
  rw [← hv2]
  rfl

/-- C2 witness: the second day of the single period of `cfgMonthly`
(January 2024, 32 rows) accrues `round8(5/100/12/31 × 100)`. -/
theorem monthly_interest_formula_witness :
    cfgMonthly.period = monthlyRel ∧
    0 < (okGroups (buildLedger cfgMonthly constLookup3 tillMonthly)).length ∧
    (0 : Nat) < 1 ∧
    1 < (ledgerGroup cfgMonthly constLookup3 tillMonthly 0).interest.length ∧
    (ledgerGroup cfgMonthly constLookup3 tillMonthly 0).interest.getD 1 0 =
      round8 ((ledgerGroup cfgMonthly constLookup3 tillMonthly 0).rate / 100 / 12 /
        ((((ledgerGroup cfgMonthly constLookup3 tillMonthly 0).dates.length : Int) - 1 : Int) : Rat) *
        (ledgerGroup cfgMonthly constLookup3 tillMonthly 0).capital) :=
  ⟨rfl, by decide!, by decide!, by decide!,
   monthly_interest_formula cfgMonthly constLookup3 tillMonthly 0 1 rfl
     (by decide!) (by decide!) (by decide!)⟩

/-- C3 counterexample: for the yearly bond `cfgYearlyJan`, whose period 1
runs 2020-12-01 … 2021-01-01, the daily interest uses 366 (the days of
2020, the year of the day BEFORE the period's end date), not 365 (the
days of 2021, the end date's own calendar year as the claim states). -/
theorem yearly_interest_counterexample :
    0 < (okGroups (buildLedger cfgYearlyJan constLookup3 tillYearly)).length ∧
    (ledgerGroup cfgYearlyJan constLookup3 tillYearly 0).interest.getD 1 0 =
      round8 ((5 : Rat) / 100 / 366 * 100) ∧
    ¬ (ledgerGroup cfgYearlyJan constLookup3 tillYearly 0).interest.getD 1 0 =
      round8 ((ledgerGroup cfgYearlyJan constLookup3 tillYearly 0).rate / 100 /
        ((daysInYear (ofRD ((ledgerGroup cfgYearlyJan constLookup3 tillYearly 0).dates.getLastD 0)).year : Int) : Rat) *
        (ledgerGroup cfgYearlyJan constLookup3 tillYearly 0).capital) := by
  refine ⟨by decide!, by decide!, by decide!⟩

/-- C3 (amended): for a yearly-reset bond, the interest of every day
after the first day of a period equals `(rate/100) × capital ÷ divisor`,
rounded to 8 decimals, where the divisor is the number of days (365 or
366) in the calendar year of the day immediately BEFORE the period's end
date. -/
theorem yearly_interest_formula (cfg : BondCfg)
    (lookup : Int → Except LookupErr Rat) (till : TillArg) (k j : Nat)
    (hper : cfg.period = yearlyRel)
    (hk : k < (okGroups (buildLedger cfg lookup till)).length)
    (hj0 : 0 < j) (hj : j < (ledgerGroup cfg lookup till k).interest.length) :
    (ledgerGroup cfg lookup till k).interest.getD j 0 =
      round8 ((ledgerGroup cfg lookup till k).rate / 100 /
        ((daysInYear (ofRD ((ledgerGroup cfg lookup till k).dates.getLastD 0 - 1)).year : Int) : Rat) *
        (ledgerGroup cfg lookup till k).capital) := by
  obtain ⟨hlen, v, hv, hval⟩ := ledger_interest_value cfg lookup till k j hk hj0 hj
  rw [hval]
  unfold dailyInterestVal at hv
  rw [hper] at hv
  rw [if_pos rfl] at hv
  injection hv with hv2
  rw [← hv2]
  rfl

/-- C3 witness: the second day of the single period of `cfgYearlyJan`
accrues `round8(5/100/366 × 100)` — divisor 366 because the day before
the period end 2021-01-01 lies in the leap year 2020. -/
theorem yearly_interest_formula_witness :
    cfgYearlyJan.period = yearlyRel ∧
    0 < (okGroups (buildLedger cfgYearlyJan constLookup3 tillYearly)).length ∧
    (0 : Nat) < 1 ∧
    1 < (ledgerGroup cfgYearlyJan constLookup3 tillYearly 0).interest.length ∧
    (ledgerGroup cfgYearlyJan constLookup3 tillYearly 0).interest.getD 1 0 =
      round8 ((ledgerGroup cfgYearlyJan constLookup3 tillYearly 0).rate / 100 /
        ((daysInYear (ofRD ((ledgerGroup cfgYearlyJan constLookup3 tillYearly 0).dates.getLastD 0 - 1)).year : Int) : Rat) *
        (ledgerGroup cfgYearlyJan constLookup3 tillYearly 0).capital) :=
  ⟨rfl, by decide!, by decide!, by decide!,
   yearly_interest_formula cfgYearlyJan constLookup3 tillYearly 0 1 rfl
     (by decide!) (by decide!) (by decide!)⟩

/-! ## Claim C4: the period spans of the ledger index -/

/-- C4 counterexample: for `cfgLongMat` (maturity 1 year 6 months, yearly
reset, bought 2020-01-01), period 2 of instance 1 runs a full year up to
2022-01-01 — e.g. it contains 2021-12-01 — even though the claim's span
ends at `instance_start + maturity` = 2021-07-01.  The source truncates at
`period_start + maturity`, not at the instance's maturity date, so the
last period of an instance is NOT cut off at maturity. -/
theorem period_span_counterexample :
    ((createIndex cfgLongMat ⟨2020, 6, 1⟩).getD 1 emptyGroup).inst = 1 ∧
    ((createIndex cfgLongMat ⟨2020, 6, 1⟩).getD 1 emptyGroup).period = 2 ∧
    toRD ⟨2021, 12, 1⟩ ∈ ((createIndex cfgLongMat ⟨2020, 6, 1⟩).getD 1 emptyGroup).dates ∧
    toRD (claimPeriodEnd cfgLongMat 1 2) < toRD ⟨2021, 12, 1⟩ :=
  ⟨by decide!, by decide!, by decide!, by decide!⟩

set_option maxRecDepth 16000 in
/-- C4 (amended): a day `d` belongs to instance `i`, period `p` of the
built index exactly when `i` and `p` are within range and `d` lies in the
inclusive span from `purchase + (i-1)·maturity + (p-1)·reset` to
`min(period_start + reset, period_start + maturity)` — the upper bound
adds the maturity to the PERIOD start, so a truncation below a full reset
period only happens when the reset period exceeds the maturity. -/
theorem period_span_characterisation (cfg : BondCfg) (endD : Dt) (i p : Nat) (d : Int) :
    (∃ g ∈ createIndex cfg endD, g.inst = i ∧ g.period = p ∧ d ∈ g.dates) ↔
      (1 ≤ i ∧ i ≤ numInstances cfg endD ∧ 1 ≤ p ∧ p ≤ periodsPerMaturity cfg ∧
        toRD (periodStart cfg i p) ≤ d ∧ d ≤ toRD (periodEnd cfg i p)) := by
  unfold createIndex
  constructor
  · rintro ⟨g, hg, hi, hp, hd⟩
    rw [List.mem_flatMap] at hg
    obtain ⟨i0, hi0, hg⟩ := hg
    rw [List.mem_range] at hi0
    rw [List.mem_map] at hg
    obtain ⟨p0, hp0, rfl⟩ := hg
    rw [List.mem_range] at hp0
    have hi2 : i0 + 1 = i := hi
    have hp2 : p0 + 1 = p := hp
    subst hi2
    subst hp2
    replace hd := mem_dateRange.mp hd
    exact ⟨by omega, by omega, by omega, by omega, hd.1, hd.2⟩
  · rintro ⟨h1, h2, h3, h4, h5, h6⟩
    have hi1 : i - 1 + 1 = i := by omega
    have hp1 : p - 1 + 1 = p := by omega
    refine ⟨⟨i, p, dateRange (toRD (periodStart cfg i p)) (toRD (periodEnd cfg i p)),
      0, 0, [], [], [], []⟩, ?_, rfl, rfl, ?_⟩
    · rw [List.mem_flatMap]
      refine ⟨i - 1, by rw [List.mem_range]; omega, ?_⟩
      rw [List.mem_map]
      refine ⟨p - 1, by rw [List.mem_range]; omega, ?_⟩
      rw [hi1, hp1]
      rfl
    · exact mem_dateRange.mpr ⟨h5, h6⟩

/-! ## Claim C5: rate lookup and its error condition -/

/-- C5 counterexample: in the store `stC5` the overall index covers days
100..200 but the series `NBP:REF` only has a value on day 100.  Looking
`NBP:REF` up at day 151 resolves (1-day offset) to source day 150, which
is OUTSIDE the series' populated range `[100, 100]` — yet the lookup does
not raise: it returns NaN (`ok none`), because the source day is inside
the store's overall index. -/
theorem lookup_error_counterexample :
    getRateByDate stC5 nbprefName (ofRD 151) = .ok none ∧
    srcDay nbprefName (ofRD 151) = 150 ∧
    firstValid stC5 nbprefName = some 100 ∧
    lastValid stC5 nbprefName = some 100 := by
  refine ⟨by decide!, by decide!, by decide!, by decide!⟩

/-- C5 (amended): `get_rate(name, date)` raises exactly when the resolved
source day falls outside the store's overall populated index or the
series column does not exist at all.  When the column exists, the raised
error's payload carries the series name, the resolved source day, the
requested day and the series' populated bounds; when the column is
absent, formatting that message itself fails and the error is the bare
`KeyError` carrying only the series name.  When the index covers the
source day (and the column exists) the lookup returns NaN if the series
has no value there, and otherwise the stored value with negative values
clamped to 0. -/
theorem lookup_error_characterisation (st : RatesStore) (name : String) (d : Dt) :
    (exceptIsOk (getRateByDate st name d) = false ↔
      (inIndex st (srcDay name d) = false ∨ ¬ name ∈ st.cols)) ∧
    (∀ e, getRateByDate st name d = .error (.payload e) →
      name ∈ st.cols ∧ e.name = name ∧ e.src = srcDay name d ∧ e.req = toRD d ∧
      e.lo = firstValid st name ∧ e.hi = lastValid st name) ∧
    (¬ name ∈ st.cols → getRateByDate st name d = .error (.bare name)) ∧
    (∀ v, inIndex st (srcDay name d) = true → name ∈ st.cols →
      st.vals name (srcDay name d) = some v →
      getRateByDate st name d = .ok (some (if v < 0 then 0 else v))) ∧
    (inIndex st (srcDay name d) = true → name ∈ st.cols →
      st.vals name (srcDay name d) = none →
      getRateByDate st name d = .ok none) := by
  unfold getRateByDate
  by_cases hc : inIndex st (srcDay name d) = true ∧ name ∈ st.cols
  · rw [if_pos hc]
    refine ⟨?_, ?_, ?_, ?_, ?_⟩
    · cases hv : st.vals name (srcDay name d) <;>
        simp [exceptIsOk, hc.1, hc.2]
    · intro e he
      cases hv : st.vals name (srcDay name d) <;> rw [hv] at he <;> cases he
    · intro hnc
      exact absurd hc.2 hnc
    · intro v _ _ hv
      rw [hv]
    · intro _ _ hv
      rw [hv]
  · rw [if_neg hc]
    by_cases hcol : name ∈ st.cols
    · rw [if_pos hcol]
      refine ⟨?_, ?_, ?_, ?_, ?_⟩
      · simp only [exceptIsOk, true_iff]
        rcases Decidable.not_and_iff_or_not.mp hc with h | h
        · exact Or.inl (by simpa using h)
        · exact Or.inr h
      · intro e he
        injection he with he2
        injection he2 with he3
        subst he3
        exact ⟨hcol, rfl, rfl, rfl, rfl, rfl⟩
      · intro hnc
        exact absurd hcol hnc
      · intro v h1 h2 _
        exact absurd ⟨h1, h2⟩ hc
      · intro h1 h2 _
        exact absurd ⟨h1, h2⟩ hc
    · rw [if_neg hcol]
      refine ⟨?_, ?_, ?_, ?_, ?_⟩
      · simp only [exceptIsOk, true_iff]
        exact Or.inr hcol
      · intro e he
        injection he with he2
        cases he2
      · intro _
        rfl
      · intro v h1 h2 _
        exact absurd ⟨h1, h2⟩ hc
      · intro h1 h2 _
        exact absurd ⟨h1, h2⟩ hc

/-- C5 witness: on `stC5`, a populated in-range lookup returns the stored
value (clamped at 0), and looking up the absent column `"Z"` fails with
the bare error carrying only the name. -/
theorem lookup_error_characterisation_witness :
    inIndex stC5 (srcDay nbprefName (ofRD 101)) = true ∧
    nbprefName ∈ stC5.cols ∧
    stC5.vals nbprefName (srcDay nbprefName (ofRD 101)) = some 1 ∧
    getRateByDate stC5 nbprefName (ofRD 101) = .ok (some (if (1 : Rat) < 0 then 0 else 1)) ∧
    ¬ "Z" ∈ stC5.cols ∧
    getRateByDate stC5 "Z" (ofRD 150) = .error (.bare "Z") :=
  ⟨by decide!, by decide!, by decide!,
   (lookup_error_characterisation stC5 nbprefName (ofRD 101)).2.2.2.1 1
     (by decide!) (by decide!) (by decide!),
   by decide!,
   (lookup_error_characterisation stC5 "Z" (ofRD 150)).2.2.1 (by decide!)⟩

/-! ## Claim C6: the profit-curve identity and monotonicity -/

/-- Elements of `insertSorted` come from the insertion or the list. -/
theorem mem_insertSorted {x y : Int} : ∀ {l : List Int},
    x ∈ insertSorted y l → x = y ∨ x ∈ l := by
  intro l
  induction l with
  | nil => intro h; simp [insertSorted] at h; exact Or.inl h
  | cons z t ih =>
      intro h
      unfold insertSorted at h
      split at h
      · rcases List.mem_cons.mp h with rfl | h2
        · exact Or.inl rfl
        · exact Or.inr h2
      · split at h
        · exact Or.inr h
        · rcases List.mem_cons.mp h with rfl | h2
          · exact Or.inr (List.mem_cons_self _ _)
          · rcases ih h2 with h3 | h3
            · exact Or.inl h3
            · exact Or.inr (List.mem_cons_of_mem z h3)

/-- Elements of `sortedDedup` are values of the original list. -/
theorem mem_sortedDedup {x : Int} : ∀ {l : List Int}, x ∈ sortedDedup l → x ∈ l := by
  intro l
  induction l with
  | nil => intro h; simp [sortedDedup] at h
  | cons z t ih =>
      intro h
      rcases mem_insertSorted h with rfl | h2
      · exact List.mem_cons_self _ _
      · exact List.mem_cons_of_mem z (ih h2)

/-- A `foldl max` only grows its accumulator. -/
theorem le_foldl_max : ∀ (l : List Rat) (acc : Rat), acc ≤ l.foldl max acc := by
  intro l
  induction l with
  | nil => intro acc; exact le_refl acc
  | cons x t ih =>
      intro acc
      exact le_trans (le_max_left acc x) (ih (max acc x))

/-- The maximum of a non-empty list of non-negative values is
non-negative. -/
theorem listMax_nonneg (l : List Rat) (hne : l ≠ [])
    (h : ∀ x ∈ l, 0 ≤ x) : 0 ≤ listMax l := by
  cases l with
  | nil => exact absurd rfl hne
  | cons x t =>
      exact le_trans (h x (List.mem_cons_self x t)) (le_foldl_max t x)

/-- When every source row carries non-negative interest, every collapsed
per-date row does too. -/
theorem setProfitsTable_interest_nonneg (t : List PRow)
    (h : ∀ r ∈ t, 0 ≤ r.interest) :
    ∀ row ∈ setProfitsTable t, 0 ≤ row.interest := by
  intro row hrow
  unfold setProfitsTable at hrow
  rw [List.mem_map] at hrow
  obtain ⟨dd, hd, rfl⟩ := hrow
  have hd2 : dd ∈ t.map (fun r => r.date) := mem_sortedDedup hd
  rw [List.mem_map] at hd2
  obtain ⟨r0, hr0, hr0d⟩ := hd2
  apply listMax_nonneg
  · have : r0 ∈ t.filter (fun r => r.date = dd) := by
      rw [List.mem_filter]
      exact ⟨hr0, by simp [hr0d]⟩
    intro hmap
    rw [List.map_eq_nil_iff] at hmap
    rw [hmap] at this
    simp at this
  · intro x hx
    rw [List.mem_map] at hx
    obtain ⟨r1, hr1, rfl⟩ := hx
    exact h r1 (List.mem_filter.mp hr1).1

/-- Every row written by the cumulative pass carries a cumulative
interest of at least the incoming accumulator. -/
theorem setCumulativeCols_ge (l : List GRow) :
    ∀ si sc, (∀ r ∈ l, 0 ≤ r.interest) →
      ∀ row ∈ setCumulativeCols si sc l, si ≤ row.sumInterest := by
  induction l with
  | nil => intro si sc _ row hrow; simp [setCumulativeCols] at hrow
  | cons r t ih =>
      intro si sc h row hrow
      rcases List.mem_cons.mp hrow with rfl | hrow2
      · have := h r (List.mem_cons_self r t)
        show si ≤ si + r.interest
        linarith
      · have h0 := h r (List.mem_cons_self r t)
        have := ih (si + r.interest) (sc + r.contPremium)
          (fun r2 hr2 => h r2 (List.mem_cons_of_mem r hr2)) row hrow2
        linarith

/-- With non-negative interest everywhere, the cumulative interest column
is non-decreasing along the curve. -/
theorem setCumulativeCols_chain (l : List GRow) :
    ∀ si sc, (∀ r ∈ l, 0 ≤ r.interest) →
      List.Chain' (fun a b => a.sumInterest ≤ b.sumInterest)
        (setCumulativeCols si sc l) := by
  induction l with
  | nil => intro si sc _; simp [setCumulativeCols]
  | cons r t ih =>
      intro si sc h
      show List.Chain' _ (_ :: setCumulativeCols (si + r.interest) (sc + r.contPremium) t)
      rw [List.chain'_cons']
      constructor
      · intro y hy
        apply setCumulativeCols_ge t (si + r.interest) (sc + r.contPremium)
          (fun r2 hr2 => h r2 (List.mem_cons_of_mem r hr2))
        exact List.mem_of_mem_head? hy
      · exact ih (si + r.interest) (sc + r.contPremium)
          (fun r2 hr2 => h r2 (List.mem_cons_of_mem r hr2))

/-- C6 (amended): every row of the profit curve satisfies
`total = sum_interest − early_buyout_cost + sum_continuation_premium`
exactly, and — provided every interest entry of the source ledger is
non-negative — the `sum_interest` column is non-decreasing along the
(date-sorted) curve. -/
theorem profit_total_identity (src : List PRow) (till : TillArg) :
    (∀ row ∈ calcTotal src till,
      row.total = row.sumInterest - row.ebCost + row.sumContPremium) ∧
    ((∀ r ∈ src, 0 ≤ r.interest) →
      List.Chain' (fun a b => a.sumInterest ≤ b.sumInterest) (calcTotal src till)) := by
  constructor
  · intro row hrow
    unfold calcTotal setTotal at hrow
    rw [List.mem_map] at hrow
    obtain ⟨r0, _, rfl⟩ := hrow
    rfl
  · intro h
    unfold calcTotal setTotal
    rw [List.chain'_map]
    apply setCumulativeCols_chain
    apply setProfitsTable_interest_nonneg
    intro r hr
    unfold replaceEbNan at hr
    rw [List.mem_map] at hr
    obtain ⟨r0, hr0, rfl⟩ := hr
    exact h r0 hr0

/-- C6 witness: the identity and monotonicity on a concrete two-row
ledger. -/
theorem profit_total_identity_witness :
    (∀ r ∈ [rowW, ({ rowW with date := 1, interest := 2 } : PRow)], 0 ≤ r.interest) ∧
    (∀ row ∈ calcTotal [rowW, { rowW with date := 1, interest := 2 }] (.rel ⟨0, 0, 1⟩),
      row.total = row.sumInterest - row.ebCost + row.sumContPremium) ∧
    List.Chain' (fun a b => a.sumInterest ≤ b.sumInterest)
      (calcTotal [rowW, { rowW with date := 1, interest := 2 }] (.rel ⟨0, 0, 1⟩)) :=
  ⟨by decide!,
   (profit_total_identity [rowW, { rowW with date := 1, interest := 2 }]
     (.rel ⟨0, 0, 1⟩)).1,
   (profit_total_identity [rowW, { rowW with date := 1, interest := 2 }]
     (.rel ⟨0, 0, 1⟩)).2 (by decide!)⟩


/-- For a curve of at least two rows, the chain relation bounds the first
two rows' cumulative interest. -/
theorem chain_getD_le (l : List GRow) (hlen : 1 < l.length)
    (h : List.Chain' (fun a b => a.sumInterest ≤ b.sumInterest) l) :
    (l.getD 0 emptyGRow).sumInterest ≤ (l.getD 1 emptyGRow).sumInterest := by
  match l with
  | [] => simp at hlen
  | [r] => simp at hlen
  | r1 :: r2 :: t => exact (List.chain'_cons.mp h).1

/-- C6 counterexample: with the (unvalidated) negative initial rate of
`cfgNegRate` the engine produces a ledger with negative daily interest,
and the resulting profit curve's `sum_interest` column is strictly
decreasing from day 1 on — the claim's unconditional monotonicity fails. -/
theorem curveNegRate_facts :
    (curveNegRate.getD 0 emptyGRow).sumInterest = 0 ∧
    (curveNegRate.getD 1 emptyGRow).sumInterest < 0 ∧
    1 < curveNegRate.length :=
  ⟨by decide!, by decide!, by decide!⟩

set_option maxRecDepth 10000 in
/-- C6 counterexample, continued: the unconditional monotonicity claim is
false on `curveNegRate`. -/
theorem profit_monotonicity_counterexample :
    (curveNegRate.getD 0 emptyGRow).sumInterest = 0 ∧
    (curveNegRate.getD 1 emptyGRow).sumInterest < 0 ∧
    1 < curveNegRate.length ∧
    ¬ List.Chain' (fun a b => a.sumInterest ≤ b.sumInterest) curveNegRate := by
  obtain ⟨h0, h1, hlen⟩ := curveNegRate_facts
  refine ⟨h0, h1, hlen, ?_⟩
  intro hchain
  have hle := chain_getD_le _ hlen hchain
  rw [h0] at hle
  linarith

/-! ## Claim C8: continuous rate assignment -/

/-- `rangeAssign` never changes the populated index. -/
theorem rangeAssign_range (st : RatesStore) (name : String) (s e : Int) (v : Rat) :
    (rangeAssign st name s e v).range = st.range := by
  cases hr : st.range with
  | none => simp [rangeAssign, hr]
  | some ab => cases ab with | mk a b => simp [rangeAssign, hr]

/-- Reading the assigned series after one label-slice assignment. -/
theorem rangeAssign_vals (st : RatesStore) (name : String) (s e : Int) (v : Rat)
    (a b : Int) (h : st.range = some (a, b)) (x : Int) :
    (rangeAssign st name s e v).vals name x =
      if max s a ≤ x ∧ x ≤ min e b then some v else st.vals name x := by
  simp [rangeAssign, h]

/-- Unfolding `lastHit` on a cons cell. -/
theorem lastHit_cons (a b x : Int) (s1 : Rat × Int × Int) (t : List (Rat × Int × Int)) :
    lastHit a b x (s1 :: t) =
      match lastHit a b x t with
      | some w => some w
      | none => if max s1.2.1 a ≤ x ∧ x ≤ min s1.2.2 b then some s1.1 else none := rfl

/-- The assignment fold never changes the populated index. -/
theorem assignFold_range (name : String) : ∀ (segs : List (Rat × Int × Int)) (st : RatesStore),
    (segs.foldl (fun s vse => rangeAssign s name vse.2.1 vse.2.2 vse.1) st).range = st.range := by
  intro segs
  induction segs with
  | nil => intro st; rfl
  | cons s1 t ih =>
      intro st
      rw [List.foldl_cons, ih, rangeAssign_range]

/-- Value of the assigned series after the whole assignment fold: the
value of the LAST segment whose clipped span contains the day, or the
previous value if no segment covers it. -/
theorem assignFold_vals (name : String) (a b : Int) :
    ∀ (segs : List (Rat × Int × Int)) (st : RatesStore), st.range = some (a, b) →
      ∀ x, (segs.foldl (fun s vse => rangeAssign s name vse.2.1 vse.2.2 vse.1) st).vals name x =
        (lastHit a b x segs).elim (st.vals name x) some := by
  intro segs
  induction segs with
  | nil => intro st h x; rfl
  | cons s1 t ih =>
      intro st h x
      rw [List.foldl_cons,
        ih (rangeAssign st name s1.2.1 s1.2.2 s1.1) (by rw [rangeAssign_range]; exact h) x,
        lastHit_cons]
      cases hlh : lastHit a b x t with
      | some w => rfl
      | none =>
          rw [rangeAssign_vals st name _ _ _ a b h x]
          by_cases hc : max s1.2.1 a ≤ x ∧ x ≤ min s1.2.2 b
          · rw [if_pos hc, if_pos hc]; rfl
          · rw [if_neg hc, if_neg hc]

/-- When no segment's clipped span contains the day, there is no hit. -/
theorem lastHit_none (a b x : Int) : ∀ (segs : List (Rat × Int × Int)),
    (∀ s ∈ segs, ¬ (max s.2.1 a ≤ x ∧ x ≤ min s.2.2 b)) →
    lastHit a b x segs = none := by
  intro segs
  induction segs with
  | nil => intro _; rfl
  | cons s1 t ih =>
      intro h
      rw [lastHit_cons, ih (fun s hs => h s (List.mem_cons_of_mem s1 hs))]
      rw [if_neg (h s1 (List.mem_cons_self s1 t))]

/-- `contSegs` on an empty value list. -/
theorem contSegs_nil_values (dates : List Int) (L : Int) : contSegs [] dates L = [] := rfl

/-- `contSegs` on an empty breakpoint list. -/
theorem contSegs_nil_dates (values : List Rat) (L : Int) : contSegs values [] L = [] := by
  cases values <;> rfl

/-- `contSegs` with at least two breakpoints peels off one segment. -/
theorem contSegs_cons2 (v : Rat) (vs : List Rat) (d1 d2 : Int) (ds : List Int) (L : Int) :
    contSegs (v :: vs) (d1 :: d2 :: ds) L = (v, d1, d2) :: contSegs vs (d2 :: ds) L := rfl

/-- `contSegs` with one breakpoint: a single segment up to the index end. -/
theorem contSegs_single (v : Rat) (vs : List Rat) (d1 L : Int) :
    contSegs (v :: vs) [d1] L = [(v, d1, L)] := by
  cases vs <;> rfl

/-- Every segment start produced by `contSegs` is one of the breakpoints. -/
theorem contSegs_start_mem (L : Int) : ∀ (dates : List Int) (values : List Rat)
    (s : Rat × Int × Int), s ∈ contSegs values dates L → s.2.1 ∈ dates := by
  intro dates
  induction dates with
  | nil =>
      intro values s hs
      rw [contSegs_nil_dates] at hs
      simp at hs
  | cons d1 rest ih =>
      intro values s hs
      cases values with
      | nil => rw [contSegs_nil_values] at hs; simp at hs
      | cons v vs =>
          cases rest with
          | nil =>
              rw [contSegs_single] at hs
              rcases List.mem_cons.mp hs with rfl | h2
              · exact List.mem_cons_self _ _
              · simp at h2
          | cons d2 ds =>
              rw [contSegs_cons2] at hs
              rcases List.mem_cons.mp hs with rfl | h2
              · exact List.mem_cons_self _ _
              · exact List.mem_cons_of_mem d1 (ih vs s h2)

/-- Minimum of the fold is a lower bound of the accumulator. -/
theorem foldl_min_le : ∀ (l : List Int) (acc : Int), l.foldl min acc ≤ acc := by
  intro l
  induction l with
  | nil => intro acc; exact le_refl acc
  | cons x t ih =>
      intro acc
      exact le_trans (ih (min acc x)) (min_le_left acc x)

/-- Minimum of the fold is a lower bound of every element. -/
theorem foldl_min_le_mem : ∀ (l : List Int) (acc t : Int), t ∈ l → l.foldl min acc ≤ t := by
  intro l
  induction l with
  | nil => intro acc t ht; simp at ht
  | cons x s ih =>
      intro acc t ht
      rcases List.mem_cons.mp ht with rfl | h2
      · exact le_trans (foldl_min_le s (min acc t)) (min_le_right acc t)
      · exact ih (min acc x) t h2

/-- Maximum of the fold is an upper bound of the accumulator. -/
theorem le_foldl_max_int : ∀ (l : List Int) (acc : Int), acc ≤ l.foldl max acc := by
  intro l
  induction l with
  | nil => intro acc; exact le_refl acc
  | cons x t ih =>
      intro acc
      exact le_trans (le_max_left acc x) (ih (max acc x))

/-- Maximum of the fold is an upper bound of every element. -/
theorem mem_le_foldl_max : ∀ (l : List Int) (acc t : Int), t ∈ l → t ≤ l.foldl max acc := by
  intro l
  induction l with
  | nil => intro acc t ht; simp at ht
  | cons x s ih =>
      intro acc t ht
      rcases List.mem_cons.mp ht with rfl | h2
      · exact le_trans (le_max_right acc t) (le_foldl_max_int s (max acc t))
      · exact ih (max acc x) t h2

/-- `min(dates)` bounds every breakpoint from below. -/
theorem minList_le (l : List Int) (t : Int) (ht : t ∈ l) : minList l 0 ≤ t := by
  cases l with
  | nil => simp at ht
  | cons h0 t0 =>
      show (h0 :: t0).foldl min ((h0 :: t0).headD 0) ≤ t
      rcases List.mem_cons.mp ht with rfl | h2
      · exact le_trans (foldl_min_le t0 (min t t)) (by simp)
      · exact foldl_min_le_mem t0 (min h0 h0) t h2

/-- `max(dates)` bounds every breakpoint from above. -/
theorem le_maxList (l : List Int) (t : Int) (ht : t ∈ l) : t ≤ maxList l 0 := by
  cases l with
  | nil => simp at ht
  | cons h0 t0 =>
      show t ≤ (h0 :: t0).foldl max ((h0 :: t0).headD 0)
      rcases List.mem_cons.mp ht with rfl | h2
      · exact le_trans (by simp) (le_foldl_max_int t0 (max t t))
      · exact mem_le_foldl_max t0 (max h0 h0) t h2

/-- After the index preparation of `set_rates_continuously`, the index is
an interval containing every breakpoint. -/
theorem prep_bounds (st : RatesStore) (dates : List Int) (hne : dates ≠ []) :
    ∃ a b, (prepDF st (some (minList dates 0)) (some (maxList dates 0))).range = some (a, b) ∧
      ∀ t ∈ dates, a ≤ t ∧ t ≤ b := by
  cases dates with
  | nil => exact absurd rfl hne
  | cons d0 rest =>
      have hmem : d0 ∈ d0 :: rest := List.mem_cons_self d0 rest
      cases hr : st.range with
      | none =>
          refine ⟨minList (d0 :: rest) 0, maxList (d0 :: rest) 0, ?_, ?_⟩
          · simp only [prepDF, hr, Option.getD]
            rw [if_pos (le_trans (minList_le _ d0 hmem) (le_maxList _ d0 hmem))]
          · intro t ht
            exact ⟨minList_le _ t ht, le_maxList _ t ht⟩
      | some ab =>
          cases ab with
          | mk a0 b0 =>
              refine ⟨if minList (d0 :: rest) 0 > a0 then a0 else minList (d0 :: rest) 0,
                if maxList (d0 :: rest) 0 < b0 then b0 else maxList (d0 :: rest) 0, ?_, ?_⟩
              · simp [prepDF, hr]
              · intro t ht
                have h1 := minList_le (d0 :: rest) t ht
                have h2 := le_maxList (d0 :: rest) t ht
                exact ⟨by split <;> omega, by split <;> omega⟩

/-- Default irrelevance of `getLastD` on non-empty lists. -/
theorem getLastD_ne_nil {α : Type} (l : List α) (hne : l ≠ []) (d d' : α) :
    l.getLastD d = l.getLastD d' := by
  cases l with
  | nil => exact absurd rfl hne
  | cons a t => rw [List.getLastD_cons, List.getLastD_cons]

/-- `getLastD` as a `getD` at the last position. -/
theorem getLastD_eq_getD {α : Type} (l : List α) (hne : l ≠ []) (d : α) :
    l.getLastD d = l.getD (l.length - 1) d := by
  induction l with
  | nil => exact absurd rfl hne
  | cons a t ih =>
      cases t with
      | nil => rfl
      | cons b s =>
          have h1 : (a :: b :: s).getLastD d = (b :: s).getLastD d := by
            rw [List.getLastD_cons]
            exact getLastD_ne_nil _ (by simp) a d
          rw [h1, ih (by simp)]
          have h2 : (a :: b :: s).length - 1 = ((b :: s).length - 1) + 1 := by
            simp [List.length_cons]
          rw [h2, List.getD_cons_succ]

/-- Strictly sorted lists have strictly increasing `getD` entries. -/
theorem pairwise_lt_getD (l : List Int) (h : l.Pairwise (fun p q => p < q)) (i j : Nat)
    (hij : i < j) (hj : j < l.length) : l.getD i 0 < l.getD j 0 := by
  have hi : i < l.length := lt_trans hij hj
  rw [List.getD_eq_getElem?_getD, List.getD_eq_getElem?_getD,
    List.getElem?_eq_getElem hi, List.getElem?_eq_getElem hj]
  simp only [Option.getD_some]
  exact List.pairwise_iff_getElem.mp h i j hi hj hij

/-- `getD` at an in-range position is a member. -/
theorem getD_mem_int (l : List Int) (k : Nat) (hk : k < l.length) : l.getD k 0 ∈ l := by
  rw [List.getD_eq_getElem?_getD, List.getElem?_eq_getElem hk]
  simp only [Option.getD_some]
  exact List.getElem_mem hk

/-- Interior spans: for a strictly increasing breakpoint list whose members
all lie in the clipped index range, a day in `[dates[i], dates[i+1])` is
covered exactly by segment `i`. -/
theorem lastHit_inner (a b L : Int) :
    ∀ (dates : List Int) (values : List Rat) (i : Nat) (x : Int),
      dates.Pairwise (fun p q => p < q) →
      values.length = dates.length →
      (∀ t ∈ dates, a ≤ t ∧ t ≤ b) →
      i + 1 < dates.length →
      dates.getD i 0 ≤ x → x < dates.getD (i + 1) 0 →
      lastHit a b x (contSegs values dates L) = some (values.getD i 0) := by
  intro dates
  induction dates with
  | nil =>
      intro values i x _ _ _ hlt _ _
      simp at hlt
  | cons d1 rest ih =>
      intro values i x hsort hlen hbound hlt hge hlt2
      cases rest with
      | nil => simp at hlt
      | cons d2 ds =>
          cases values with
          | nil => simp at hlen
          | cons v vs =>
              rw [contSegs_cons2]
              cases i with
              | zero =>
                  rw [lastHit_cons]
                  have hd1 : (a ≤ d1 ∧ d1 ≤ b) := hbound d1 (List.mem_cons_self _ _)
                  have hd2 : (a ≤ d2 ∧ d2 ≤ b) :=
                    hbound d2 (List.mem_cons_of_mem d1 (List.mem_cons_self _ _))
                  have hge' : d1 ≤ x := hge
                  have hlt2' : x < d2 := hlt2
                  have hnone : lastHit a b x (contSegs vs (d2 :: ds) L) = none := by
                    apply lastHit_none
                    intro s hs hcond
                    have hsm : s.2.1 ∈ d2 :: ds := contSegs_start_mem L (d2 :: ds) vs s hs
                    have hxlt : x < s.2.1 := by
                      rcases List.mem_cons.mp hsm with rfl | h2
                      · exact hlt2'
                      · have hd2lt := (List.pairwise_cons.mp
                          (List.pairwise_cons.mp hsort).2).1 s.2.1 h2
                        omega
                    have := le_trans (le_max_left s.2.1 a) hcond.1
                    omega
                  rw [hnone, if_pos ⟨max_le hge' (le_trans hd1.1 hge'),
                    le_min (le_of_lt hlt2') (le_trans (le_of_lt hlt2') hd2.2)⟩]
                  rfl
              | succ j =>
                  rw [lastHit_cons, ih vs j x (List.pairwise_cons.mp hsort).2
                    (by simpa using hlen)
                    (fun t ht => hbound t (List.mem_cons_of_mem d1 ht))
                    (by simp only [List.length_cons] at hlt ⊢; omega)
                    (by rw [List.getD_cons_succ] at hge; exact hge)
                    (by rw [List.getD_cons_succ] at hlt2; exact hlt2)]
                  rfl

/-- Final span: from the last breakpoint through the index end `b`, the
last value is the one that sticks. -/
theorem lastHit_final (a b : Int) :
    ∀ (dates : List Int) (values : List Rat) (x : Int),
      dates.Pairwise (fun p q => p < q) →
      values.length = dates.length →
      (∀ t ∈ dates, a ≤ t ∧ t ≤ b) →
      dates ≠ [] →
      dates.getLastD 0 ≤ x → x ≤ b →
      lastHit a b x (contSegs values dates b) = some (values.getLastD 0) := by
  intro dates
  induction dates with
  | nil =>
      intro values x _ _ _ hne _ _
      exact absurd rfl hne
  | cons d1 rest ih =>
      intro values x hsort hlen hbound _ hge hle
      cases values with
      | nil => simp at hlen
      | cons v vs =>
          cases rest with
          | nil =>
              cases vs with
              | cons v2 vs2 => simp at hlen
              | nil =>
                  rw [contSegs_single, lastHit_cons]
                  have hd1 : a ≤ d1 ∧ d1 ≤ b := hbound d1 (List.mem_cons_self _ _)
                  have hge' : d1 ≤ x := hge
                  rw [if_pos ⟨max_le hge' (le_trans hd1.1 hge'), le_min hle hle⟩]
                  rfl
          | cons d2 ds =>
              rw [contSegs_cons2, lastHit_cons]
              have hvs : vs ≠ [] := by
                intro hE
                rw [hE] at hlen
                simp at hlen
              have hge' : (d2 :: ds).getLastD 0 ≤ x := by
                have heq : (d1 :: d2 :: ds).getLastD 0 = (d2 :: ds).getLastD 0 := by
                  rw [List.getLastD_cons]
                  exact getLastD_ne_nil _ (by simp) d1 0
                rw [← heq]
                exact hge
              rw [ih vs x (List.pairwise_cons.mp hsort).2 (by simpa using hlen)
                (fun t ht => hbound t (List.mem_cons_of_mem d1 ht))
                (by simp) hge' hle]
              rw [List.getLastD_cons, getLastD_ne_nil vs hvs v 0]

/-- C8: after `set_rates_continuously(name, values, dates)` with a strictly
increasing breakpoint list, every day of the half-open span
`[dates[i], dates[i+1])` reads `values[i]`, the breakpoint day `dates[i+1]`
itself reads `values[i+1]`, and the last value applies from `dates[-1]`
through the end of the populated index. -/
theorem set_continuous_spans (st : RatesStore) (name : String) (values : List Rat)
    (dates : List Int) (hsort : dates.Pairwise (fun p q => p < q))
    (hlen : values.length = dates.length) (hne : dates ≠ []) :
    (∀ i x, i + 1 < dates.length → dates.getD i 0 ≤ x → x < dates.getD (i + 1) 0 →
      (setRatesCont st name values dates none).vals name x = some (values.getD i 0)) ∧
    (∀ i, i + 1 < dates.length →
      (setRatesCont st name values dates none).vals name (dates.getD (i + 1) 0) =
        some (values.getD (i + 1) 0)) ∧
    (∀ x, dates.getLastD 0 ≤ x → x ≤ storeLast (setRatesCont st name values dates none) →
      (setRatesCont st name values dates none).vals name x = some (values.getLastD 0)) := by
  obtain ⟨a, b, hr, hbounds⟩ := prep_bounds st dates hne
  have hL : storeLast (prepDF st (some (minList dates 0)) (some (maxList dates 0))) = b := by
    simp [storeLast, hr]
  have hset : setRatesCont st name values dates none =
      (contSegs values dates
          (storeLast (prepDF st (some (minList dates 0)) (some (maxList dates 0))))).foldl
        (fun s vse => rangeAssign s name vse.2.1 vse.2.2 vse.1)
        (prepDF st (some (minList dates 0)) (some (maxList dates 0))) := rfl
  have hvals : ∀ x, (setRatesCont st name values dates none).vals name x =
      (lastHit a b x (contSegs values dates b)).elim
        ((prepDF st (some (minList dates 0)) (some (maxList dates 0))).vals name x) some := by
    intro x
    rw [hset, hL, assignFold_vals name a b _ _ hr x]
  have hrange : (setRatesCont st name values dates none).range = some (a, b) := by
    rw [hset, assignFold_range, hr]
  have hlast : storeLast (setRatesCont st name values dates none) = b := by
    simp [storeLast, hrange]
  refine ⟨?_, ?_, ?_⟩
  · intro i x hi hge hlt
    rw [hvals x, lastHit_inner a b b dates values i x hsort hlen hbounds hi hge hlt]
    rfl
  · intro i hi
    by_cases hcase : i + 1 + 1 < dates.length
    · have h2 : dates.getD (i + 1) 0 < dates.getD (i + 1 + 1) 0 :=
        pairwise_lt_getD dates hsort (i + 1) (i + 1 + 1) (by omega) hcase
      rw [hvals _, lastHit_inner a b b dates values (i + 1) _ hsort hlen hbounds hcase
        (le_refl _) h2]
      rfl
    · have hieq : i + 1 = dates.length - 1 := by
        simp only [List.length_cons] at hi hcase ⊢
        omega
      have hmem := getD_mem_int dates (i + 1) hi
      have hgl : dates.getLastD 0 = dates.getD (i + 1) 0 := by
        rw [getLastD_eq_getD dates hne, ← hieq]
      have hdpos : 0 < dates.length := List.length_pos.mpr hne
      have hvne : values ≠ [] := by
        intro hE
        rw [hE] at hlen
        simp at hlen
        omega
      have hvlast : values.getLastD 0 = values.getD (i + 1) 0 := by
        rw [getLastD_eq_getD values hvne, hlen, ← hieq]
      rw [hvals _, lastHit_final a b dates values _ hsort hlen hbounds hne
        (le_of_eq hgl) (hbounds _ hmem).2, hvlast]
      rfl
  · intro x hge hle
    rw [hlast] at hle
    rw [hvals x, lastHit_final a b dates values x hsort hlen hbounds hne hge hle]
    rfl

/-- C8 witness: a fresh store, two breakpoints `[0, 5]` with values
`[1, 2]`: day `3` reads `1`, the breakpoint day `5` reads `2`, and day `5`
(the index end) also carries the last value via the final-span clause. -/
theorem set_continuous_spans_witness :
    (setRatesCont emptyStore "X" [1, 2] [0, 5] none).vals "X" 3 = some 1 ∧
    (setRatesCont emptyStore "X" [1, 2] [0, 5] none).vals "X" 5 = some 2 := by
  have h := set_continuous_spans emptyStore "X" [1, 2] [0, 5] (by decide) (by decide)
    (by decide)
  constructor
  · have h1 := h.1 0 3 (by decide) (by decide) (by decide)
    simpa using h1
  · have h2 := h.2.1 0 (by decide)
    simpa using h2

set_option maxRecDepth 16000 in
/-- C4 witness: instantiating the span characterisation at a concrete
bond: day 2021-12-01 lies in instance 1, period 2 of the 18-month-reset
6-month-maturity ledger (the period that claim C4's own end formula would
have cut short). -/
theorem period_span_characterisation_witness :
    ∃ g ∈ createIndex cfgLongMat ⟨2020, 6, 1⟩,
      g.inst = 1 ∧ g.period = 2 ∧ toRD ⟨2021, 12, 1⟩ ∈ g.dates :=
  (period_span_characterisation cfgLongMat ⟨2020, 6, 1⟩ 1 2 (toRD ⟨2021, 12, 1⟩)).mpr
    ⟨by decide!, by decide!, by decide!, by decide!, by decide!, by decide!⟩
